import Mathlib

/-!
Verification of the goCacheX distributed cache against its specification.

The definitions below are a shallow embedding of the Go source:
* `ByteView`            — cache/byteview.go
* `LruCache` and its operations — the byte-budgeted LRU store (lru.Cache)
* `Gcache`              — the lock-protected façade `cache` (lazy init)
* registry operations   — the global name → Group registry
* `CHMap`               — consistenthash.Map
* `GroupEnv` / `groupLoad` — the Group orchestrator's load pipeline
* `ArcState`            — the TTL variant of the ARC store (lru/arc.go),
  with Go's `container/list` elements modelled by identity (element ids),
  since the source stores `*list.Element` values in maps and, in one
  place, pushes an element itself as another element's value.

Go `int64`/`int` arithmetic is modelled with `Int` (no overflow occurs at
the small sizes exercised here); byte slices are `List Nat`; `nil` pointers
and panics are modelled with `Option`. Mutexes are dropped where an
operation is a single critical section (its body is then one atomic state
transformation); the single-flight coalescer is modelled separately as a
small-step interleaving machine.
-/

namespace GoCacheX

/-- ByteView (cache/byteview.go): read-only wrapper over a byte slice. -/
structure ByteView where
  b : List Nat
deriving DecidableEq

/-- ByteView.Len: length of the underlying byte slice. -/
def ByteView.len (v : ByteView) : Nat := v.b.length

/-- cloneBytes: returns a copy of the byte slice.  On immutable Lean lists a
copy is the identity; it is kept as a named function to mirror the source. -/
def cloneBytes (bs : List Nat) : List Nat := bs

/-! ## LRU store (lru.Cache)

The doubly linked list `ll` is modelled as a Lean list, front (= most
recently used) first.  The hash index `cache map[string]*list.Element` is
derived from the list (first occurrence of a key), which agrees with the Go
map on every state the operations produce.  The optional `OnEvicted`
callback is not modelled: every caller in the repository passes `nil`, and
it does not affect any field mentioned by the claims.  The value type is a
parameter together with its `Len` method, as in the Go `Value` interface. -/

structure LruCache (V : Type) where
  maxBytes : Int
  nbytes : Int
  ll : List (String × V)
deriving DecidableEq

/-- lru.New: empty cache with the given byte budget. -/
def LruCache.new (V : Type) (maxB : Int) : LruCache V :=
  { maxBytes := maxB, nbytes := 0, ll := [] }

/-- First value stored under a key (the Go map lookup `m[key]`). -/
def findVal {K V : Type} [DecidableEq K] : List (K × V) → K → Option V
  | [], _ => none
  | p :: rest, k => if p.1 = k then some p.2 else findVal rest k

/-- Drop the first pair with the given key (Go's `delete(m, key)` on an
association list whose keys are unique). -/
def removeFirstKey {K V : Type} [DecidableEq K] :
    List (K × V) → K → List (K × V)
  | [], _ => []
  | p :: rest, k => if p.1 = k then rest else p :: removeFirstKey rest k

/-- Byte size of one entry: len(key) + value.Len(). -/
def entrySize {V : Type} (vLen : V → Nat) (p : String × V) : Int :=
  (p.1.length : Int) + (vLen p.2 : Int)

/-- Sum of entry sizes over the list — the quantity `nbytes` accounts for. -/
def sumSize {V : Type} (vLen : V → Nat) : List (String × V) → Int
  | [] => 0
  | p :: rest => entrySize vLen p + sumSize vLen rest

/-- Back (least-recent) element of the list, `ll.Back()` in Go. -/
def backOf {α : Type} : List α → Option α
  | [] => none
  | [x] => some x
  | _ :: y :: rest => backOf (y :: rest)

/-- The list with its back element removed (identity on the empty list). -/
def dropBack {α : Type} : List α → List α
  | [] => []
  | [_] => []
  | x :: y :: rest => x :: dropBack (y :: rest)

/-- Cache.RemoveOldest: drop the back (least-recent) node, deduct its size. -/
def LruCache.removeOldest {V : Type} (vLen : V → Nat) (c : LruCache V) :
    LruCache V :=
  match backOf c.ll with
  | none => c
  | some p => { c with ll := dropBack c.ll, nbytes := c.nbytes - entrySize vLen p }

/-- The eviction loop of Cache.Add: `for maxBytes != 0 && maxBytes < nbytes`.
Each iteration with a non-empty list removes one node, so running it with
fuel = list length reaches the loop's exit condition whenever the budget is
positive and `nbytes` accounts the list (see `evictLoop_le`). -/
def evictLoop {V : Type} (vLen : V → Nat) : Nat → LruCache V → LruCache V
  | 0, c => c
  | fuel + 1, c =>
    if c.maxBytes ≠ 0 ∧ c.maxBytes < c.nbytes then
      evictLoop vLen fuel (c.removeOldest vLen)
    else c

/-- Cache.Add: update-and-promote an existing key (adjusting `nbytes` by the
value-size delta) or push a new front node (adding key size + value size),
then run the eviction loop. -/
def LruCache.add {V : Type} (vLen : V → Nat) (c : LruCache V) (k : String)
    (v : V) : LruCache V :=
  let c' : LruCache V :=
    match findVal c.ll k with
    | some vOld =>
      { c with ll := (k, v) :: removeFirstKey c.ll k,
               nbytes := c.nbytes + ((vLen v : Int) - (vLen vOld : Int)) }
    | none =>
      { c with ll := (k, v) :: c.ll,
               nbytes := c.nbytes + ((k.length : Int) + (vLen v : Int)) }
  evictLoop vLen c'.ll.length c'

/-- Cache.Get: on hit, promote the node to the front and return its value. -/
def LruCache.get {V : Type} (c : LruCache V) (k : String) :
    Option V × LruCache V :=
  match findVal c.ll k with
  | some v => (some v, { c with ll := (k, v) :: removeFirstKey c.ll k })
  | none => (none, c)

/-- Cache.Len: number of entries. -/
def LruCache.lenOp {V : Type} (c : LruCache V) : Nat := c.ll.length

/-! ## Concurrent store façade (`cache` in part_002)

`lru *lru.Cache` is a nilable pointer, modelled as an `Option`.  `add` and
`get` check the pointer and lazily initialize on `add`; `Len` calls
`c.lru.Len()` without a check, which on a zero-value façade dereferences a
nil pointer — modelled by `Option.map`, so that a `none` result is the nil
dereference. -/

def bvLen : ByteView → Nat := ByteView.len

structure Gcache where
  lru : Option (LruCache ByteView)
  cacheBytes : Int
deriving DecidableEq

/-- A zero-value façade holding only a byte budget. -/
def Gcache.zero (b : Int) : Gcache := { lru := none, cacheBytes := b }

/-- cache.add: lazily initialize the LRU with the byte budget, then Add. -/
def Gcache.add (c : Gcache) (k : String) (v : ByteView) : Gcache :=
  let l := match c.lru with
    | none => LruCache.new ByteView c.cacheBytes
    | some l => l
  { c with lru := some (l.add bvLen k v) }

/-- cache.get: nil policy → miss; otherwise delegate to lru.Get (which
promotes the node, hence also returns the updated store). -/
def Gcache.get (c : Gcache) (k : String) : ByteView × Bool × Gcache :=
  match c.lru with
  | none => (⟨[]⟩, false, c)
  | some l =>
    match l.get k with
    | (some v, l') => (v, true, { c with lru := some l' })
    | (none, l') => (⟨[]⟩, false, { c with lru := some l' })

/-- cache.Len: `c.lru.Len()` with no nil check; `none` is the panic. -/
def Gcache.lenOp (c : Gcache) : Option Nat :=
  c.lru.map (fun l => l.lenOp)

/-! ## Global namespace registry (cacheX.go / cache/cacheX.go)

`groups` is a `map[string]*Group`; registration stores under the name
unconditionally and `GetGroup` reads it back.  Group contents are abstract
here (`G`); `NewGroup` panics iff the getter is nil, modelled by the
`hasGetter` flag and an `Option` result. -/

/-- Go map assignment `m[k] = v`: overwrite any previous binding. -/
def mapSet {K G : Type} [DecidableEq K] (m : List (K × G)) (k : K) (g : G) :
    List (K × G) :=
  (k, g) :: removeFirstKey m k

/-- NewGroup: panic ("nil Getter") when the getter is nil, otherwise
register the group under its name, replacing any previous one. -/
def newGroup {G : Type} (reg : List (String × G)) (name : String)
    (hasGetter : Bool) (g : G) : Option (List (String × G)) :=
  if hasGetter then some (mapSet reg name g) else none

/-- GetGroup: read the registry under a shared lock. -/
def getGroup {G : Type} (reg : List (String × G)) (name : String) : Option G :=
  findVal reg name

/-! ## Consistent-hash ring (consistenthash.Map)

`keys` is the slice of ring positions, `mapping` the position → peer map.
The hash function is a parameter, as in the source.  `sort.Ints` is an
insertion sort here (equal positions are identical integers, so stability
is irrelevant); `sort.Search` on a sorted slice with the monotone predicate
`keys[i] >= h` returns the first index satisfying it, which is `findIdx`
(and the slice length when none does, matching `List.findIdx`). -/

structure CHMap where
  hash : String → Int
  nreplicas : Nat
  keys : List Int
  mapping : List (Int × String)

/-- Insert into a sorted list of ints, keeping it sorted. -/
def insertSorted (x : Int) : List Int → List Int
  | [] => [x]
  | y :: ys => if x ≤ y then x :: y :: ys else y :: insertSorted x ys

/-- The `sort.Ints` call of Map.Add. -/
def sortInts (l : List Int) : List Int := l.foldr insertSorted []

/-- Go map assignment for the Int-keyed position map. -/
def posMapSet (m : List (Int × String)) (k : Int) (v : String) :
    List (Int × String) :=
  (k, v) :: m.filter (fun p => p.1 ≠ k)

/-- Go map read with the zero value "" for absent positions. -/
def posMapGet (m : List (Int × String)) (k : Int) : String :=
  match m.find? (fun p => p.1 = k) with
  | some p => p.2
  | none => ""

/-- The inner loop of Map.Add for one id: append `hash(itoa(i) + id)` for
each i in [0, nreplicas) and bind the position to the id. -/
def chAddOne (m : CHMap) (id : String) : CHMap :=
  (List.range m.nreplicas).foldl
    (fun a i =>
      let h := m.hash (toString i ++ id)
      { a with keys := a.keys ++ [h], mapping := posMapSet a.mapping h id })
    m

/-- Map.Add: process every id, then re-sort the position slice. -/
def chAdd (m : CHMap) (ids : List String) : CHMap :=
  let m' := ids.foldl chAddOne m
  { m' with keys := sortInts m'.keys }

/-- Map.Get: empty ring → ""; otherwise binary-search the first position
`≥ hash(key)`, wrapping by the index modulo the ring size. -/
def chGet (m : CHMap) (key : String) : String :=
  if m.keys.length = 0 then ""
  else
    let h := m.hash key
    let idx := m.keys.findIdx (fun x => h ≤ x)
    posMapGet m.mapping (m.keys.getD (idx % m.keys.length) 0)

/-- The trivial numeric hash `h(s) = atoi(s)` of the test fixture:
`strconv.Atoi` ignoring the error, which leaves 0 on non-numeric input. -/
def atoi (s : String) : Int :=
  if s.data ≠ [] ∧ s.data.all Char.isDigit then
    (s.data.foldl (fun a c => a * 10 + (c.toNat - 48)) 0 : Nat)
  else 0

/-! ## Group orchestrator (cache/cacheX.go)

A Group is `(name, getter, mainCache, peers, loader)`.  The remote side is
abstracted exactly at the two interfaces of peers.go: `PickPeer` is a
function returning the chosen peer (`none` = self / empty ring, the
`ok=false` case) and `PeerGetter.Get` returns the response bytes or a
transport error.  `peers` is nilable (`RegisterPeers` may never have been
called).  The single-flight `loader.Do` wrapper, for the single sequential
caller modelled here, rejects the empty key and otherwise runs the closure
once (its goroutine is joined before `Do` returns). -/

abbrev PeerId := Nat

structure GroupEnv where
  peers : Option (String → Option PeerId)
  peerGet : PeerId → String → Except String (List Nat)
  getter : String → Except String (List Nat)

/-- Group.getFromPeer: call the peer and wrap `res.Value` (uncopied). -/
def getFromPeer (env : GroupEnv) (peer : PeerId) (key : String) :
    Except String ByteView :=
  match env.peerGet peer key with
  | .ok bs => .ok ⟨bs⟩
  | .error e => .error e

/-- Group.getLocally: run the loader; on success wrap a defensive copy of
its bytes and populate the main cache. -/
def getLocally (env : GroupEnv) (c : Gcache) (key : String) :
    Except String ByteView × Gcache :=
  match env.getter key with
  | .error e => (.error e, c)
  | .ok bs =>
    let v : ByteView := ⟨cloneBytes bs⟩
    (.ok v, c.add key v)

/-- Group.load: under the coalescer, try the picked peer first and fall
back to the local loader; the closure's error (never the peer's) is what
`load` surfaces. -/
def groupLoad (env : GroupEnv) (c : Gcache) (key : String) :
    Except String ByteView × Gcache :=
  if key = "" then (.error "key is empty", c)
  else
    match env.peers with
    | some pick =>
      match pick key with
      | some peer =>
        match getFromPeer env peer key with
        | .ok v => (.ok v, c)
        | .error _ => getLocally env c key
      | none => getLocally env c key
    | none => getLocally env c key

/-- The peer the load pipeline picks for a key: none when the key is
rejected by the coalescer, no picker is registered, or PickPeer reports
self/empty. -/
def loadPicked (env : GroupEnv) (key : String) : Option PeerId :=
  if key = "" then none
  else
    match env.peers with
    | some pick => pick key
    | none => none

/-- Group.Get: reject the empty key, serve a hit from the main cache, and
delegate a miss to `load`. -/
def groupGet (env : GroupEnv) (c : Gcache) (key : String) :
    Except String ByteView × Gcache :=
  if key = "" then (.error "key is required", c)
  else
    match c.get key with
    | (v, true, c') => (.ok v, c')
    | (_, false, _) => groupLoad env c key

/-! ## ARC store with TTL (the second revision in lru/arc.go)

Go's `container/list` stores `any` values in elements, and the source keeps
`*list.Element` handles in its index map (`cache map[string]*list.Element`)
and inside entries' promotion paths, so element identity matters: elements
are modelled as ids (`ElemId`) whose `Value` field lives in `elemVal`, and
the shared mutable `*arcEntry` records live in the `entries` heap
(`EntryId`).  An element's `Value` can hold an entry pointer — or, after
`Get`/`Put` promotion, which calls `arc.t2.PushFront(ele)` on the element
itself, another element (`GoVal.ref`).  A failing type assertion
`ele.Value.(*arcEntry)` without a comma-ok (a run-time panic) is the `none`
result of an operation.  `time.Time` is an `Option Int` (none = zero time,
i.e. no expiry) and the current instant is the `now` parameter; the
background reaper goroutine and `stopCh` are outside this model (the
claims quantify only over Get/Put/Remove). Payload values (`any`) are
abstracted to `Nat`. -/

abbrev ElemId := Nat
abbrev EntryId := Nat

structure ArcEntry where
  key : String
  value : Nat
  inT2 : Bool
  expireAt : Option Int
deriving DecidableEq

/-- What a `list.Element`'s `Value` field holds. -/
inductive GoVal
  | ent (eid : EntryId)
  | ref (ele : ElemId)
deriving DecidableEq

inductive LTag
  | t1
  | t2
  | b1
  | b2
deriving DecidableEq

structure ArcState where
  capacity : Int
  t1 : List ElemId
  t2 : List ElemId
  b1 : List ElemId
  b2 : List ElemId
  elemVal : List (ElemId × GoVal)
  entries : List (EntryId × ArcEntry)
  cache : List (String × ElemId)
  size : Int
  p : Int
  nextElem : Nat
  nextEntry : Nat
deriving DecidableEq

def ArcState.listOf (s : ArcState) : LTag → List ElemId
  | .t1 => s.t1
  | .t2 => s.t2
  | .b1 => s.b1
  | .b2 => s.b2

def ArcState.withList (s : ArcState) : LTag → List ElemId → ArcState
  | .t1, l => { s with t1 := l }
  | .t2, l => { s with t2 := l }
  | .b1, l => { s with b1 := l }
  | .b2, l => { s with b2 := l }

/-- Go `l.PushFront(v)`: allocate a fresh element holding `v` at the front. -/
def ArcState.pushFrontEl (s : ArcState) (tag : LTag) (v : GoVal) :
    ElemId × ArcState :=
  let id := s.nextElem
  let s1 := { s with elemVal := mapSet s.elemVal id v, nextElem := id + 1 }
  (id, s1.withList tag (id :: s1.listOf tag))

/-- Go `l.Remove(e)`: drop the element if it is in this list, no-op otherwise
(Go checks `e.list == l`). -/
def ArcState.removeEl (s : ArcState) (tag : LTag) (e : ElemId) : ArcState :=
  s.withList tag ((s.listOf tag).erase e)

/-- Go `l.MoveToFront(e)`: no-op unless the element is in this list. -/
def ArcState.moveFrontEl (s : ArcState) (tag : LTag) (e : ElemId) : ArcState :=
  if e ∈ s.listOf tag then s.withList tag (e :: (s.listOf tag).erase e) else s

/-- NewARC (TTL revision), minus the reaper goroutine it starts. -/
def newARC (cap : Int) : ArcState :=
  { capacity := cap, t1 := [], t2 := [], b1 := [], b2 := [],
    elemVal := [], entries := [], cache := [], size := 0, p := 0,
    nextElem := 0, nextEntry := 0 }

/-- Has the entry's expiry passed? (`!expireAt.IsZero() && now.After(..)`) -/
def ArcEntry.expired (e : ArcEntry) (now : Int) : Bool :=
  match e.expireAt with
  | none => false
  | some t => now > t

/-- replace (TTL revision): demote the back of T1 to B1 (or of T2 to B2),
cap the ghost list, adapt `p`, evict the demoted key from the index, and
insert the new entry at T1-front.  The comma-ok type assertions make a
wrapper element at the back an early `return` (the new entry is dropped),
not a panic. -/
def arcReplace (s : ArcState) (eid : EntryId) (entKey : String) : ArcState :=
  if s.t1.length = 0 ∧ s.t2.length = 0 then
    let (ele, s1) := s.pushFrontEl .t1 (.ent eid)
    { s1 with cache := mapSet s1.cache entKey ele }
  else if 0 < s.t1.length ∧ (0 < s.p ∨ s.b2.length = 0) then
    match backOf s.t1 with
    | none => s
    | some last =>
      match findVal s.elemVal last with
      | some (.ent lastEid) =>
        match findVal s.entries lastEid with
        | none => s
        | some lastEnt =>
          let s1 := s.removeEl .t1 last
          let (_, s2) := s1.pushFrontEl .b1 (.ent lastEid)
          let s3 := { s2 with
            entries := mapSet s2.entries lastEid { lastEnt with inT2 := false } }
          let s4 :=
            if s3.capacity < (s3.b1.length : Int) then
              match backOf s3.b1 with
              | some old => s3.removeEl .b1 old
              | none => s3
            else s3
          let s5 := { s4 with p := max 0 (s4.p - 1),
                              cache := removeFirstKey s4.cache lastEnt.key }
          let (ele, s6) := s5.pushFrontEl .t1 (.ent eid)
          { s6 with cache := mapSet s6.cache entKey ele }
      | _ => s
  else
    match backOf s.t2 with
    | none => s
    | some last =>
      match findVal s.elemVal last with
      | some (.ent lastEid) =>
        match findVal s.entries lastEid with
        | none => s
        | some lastEnt =>
          let s1 := s.removeEl .t2 last
          let (_, s2) := s1.pushFrontEl .b2 (.ent lastEid)
          let s3 := { s2 with
            entries := mapSet s2.entries lastEid { lastEnt with inT2 := true } }
          let s4 :=
            if s3.capacity < (s3.b2.length : Int) then
              match backOf s3.b2 with
              | some old => s3.removeEl .b2 old
              | none => s3
            else s3
          let s5 := { s4 with p := min s4.capacity (s4.p + 1),
                              cache := removeFirstKey s4.cache lastEnt.key }
          let (ele, s6) := s5.pushFrontEl .t1 (.ent eid)
          { s6 with cache := mapSet s6.cache entKey ele }
      | _ => s

/-- PutWithTTL: reject ttl < 0; update-and-promote an existing key (the
T1 → T2 move pushes the element itself, `arc.t2.PushFront(ele)`); insert at
T1-front while below capacity, else `replace`. -/
def arcPutWithTTL (s : ArcState) (key : String) (value : Nat) (ttl : Int)
    (now : Int) : Option ArcState :=
  if ttl < 0 then some s
  else
    match findVal s.cache key with
    | some ele =>
      match findVal s.elemVal ele with
      | some (.ent eid) =>
        match findVal s.entries eid with
        | none => none
        | some ent =>
          let newExp : Option Int := if 0 < ttl then some (now + ttl) else none
          let ent1 := { ent with value := value, expireAt := newExp }
          if ent1.inT2 = false then
            let ent2 := { ent1 with inT2 := true }
            let s1 := { s with entries := mapSet s.entries eid ent2 }
            let s2 := s1.removeEl .t1 ele
            let (_, s3) := s2.pushFrontEl .t2 (.ref ele)
            some s3
          else
            let s1 := { s with entries := mapSet s.entries eid ent1 }
            some (s1.moveFrontEl .t2 ele)
      | _ => none
    | none =>
      let eid := s.nextEntry
      let newExp : Option Int := if 0 < ttl then some (now + ttl) else none
      let ent : ArcEntry :=
        { key := key, value := value, inT2 := false, expireAt := newExp }
      let s0 :=
        { s with entries := mapSet s.entries eid ent, nextEntry := eid + 1 }
      if s0.size < s0.capacity then
        let (ele, s1) := s0.pushFrontEl .t1 (.ent eid)
        some { s1 with cache := mapSet s1.cache key ele, size := s1.size + 1 }
      else
        some (arcReplace s0 eid key)

/-- Put (TTL revision): PutWithTTL with ttl = 0. -/
def arcPut (s : ArcState) (key : String) (value : Nat) (now : Int) :
    Option ArcState :=
  arcPutWithTTL s key value 0 now

/-- Get (TTL revision): lazily expire, else promote (T1 → T2 migration
again pushes the element itself). -/
def arcGet (s : ArcState) (key : String) (now : Int) :
    Option (Option Nat × ArcState) :=
  match findVal s.cache key with
  | none => some (none, s)
  | some ele =>
    match findVal s.elemVal ele with
    | some (.ent eid) =>
      match findVal s.entries eid with
      | none => none
      | some ent =>
        if ent.expired now then
          let s1 := if ent.inT2 then s.removeEl .t2 ele else s.removeEl .t1 ele
          let s2 :=
            { s1 with cache := removeFirstKey s1.cache key, size := s1.size - 1 }
          some (none, s2)
        else if ent.inT2 = false then
          let s1 := s.removeEl .t1 ele
          let ent2 := { ent with inT2 := true }
          let s2 := { s1 with entries := mapSet s1.entries eid ent2 }
          let (_, s3) := s2.pushFrontEl .t2 (.ref ele)
          some (some ent.value, s3)
        else
          some (some ent.value, s.moveFrontEl .t2 ele)
    | _ => none

/-- Remove (TTL revision). -/
def arcRemove (s : ArcState) (key : String) : Option ArcState :=
  match findVal s.cache key with
  | none => some s
  | some ele =>
    match findVal s.elemVal ele with
    | some (.ent eid) =>
      match findVal s.entries eid with
      | none => none
      | some ent =>
        let s1 := if ent.inT2 then s.removeEl .t2 ele else s.removeEl .t1 ele
        some { s1 with cache := removeFirstKey s1.cache key,
                       size := s1.size - 1 }
    | _ => none

/-- The §4.3 index invariant: every key in the index points to an element
that holds an entry and resides in exactly one of T1/T2. -/
def arcIndexOk (s : ArcState) : Bool :=
  s.cache.all fun pr =>
    (match findVal s.elemVal pr.2 with
     | some (.ent _) => true
     | _ => false) &&
    ((s.t1.contains pr.2 && !(s.t2.contains pr.2)) ||
     (s.t2.contains pr.2 && !(s.t1.contains pr.2)))

/-! ## Single-flight coalescer (singleflight.Group.Do)

`Do` is inherently concurrent, so it is embedded as a small-step
interleaving machine over one (nonempty) key k and N caller goroutines.
Each mutex-guarded critical section of the source is one atomic step:

* `join`: lock; `g.m[key]` present → record the call pointer, unlock (the
  caller will block on `c.wg.Wait()`).
* `lead`: lock; `g.m[key]` absent → allocate the call, `c.wg.Add(1)`,
  `g.m[key] = c`, unlock.
* `spawn`: the leader's `go func()` statement, creating the worker
  goroutine that will run the thunk.
* `runThunk` / `publish`: the worker computes `c.val, c.err = fn()` and
  then `c.wg.Done()` (the deferred Done; publication is the wg counter
  reaching 0).
* `leaderUnblock` / `joinerUnblock`: a caller's `c.wg.Wait()` returns once
  the call is published; it then reads `c.val, c.err` (frozen after
  publication, which the invariant below proves).
* `deleteEntry`: the leader's lock; `delete(g.m, key)`; unlock; it then
  returns `c.val, c.err`.

The thunk is the one of the claim and of the repository's own test
(singleflight_test.go): it increments a shared counter and returns it with
a nil error; `counter` in the configuration counts executions.  A call is
identified by its index in the `calls` arena (the Go `*call` pointer);
threads that finished record which call they read and whether they led it. -/

structure SFCall where
  val : Nat
  err : Option String
  published : Bool
deriving DecidableEq

inductive TState
  | start
  | leaderSpawn (ci : Nat)
  | leaderWait (ci : Nat)
  | leaderDel (ci : Nat)
  | waiting (ci : Nat)
  | done (isLeader : Bool) (ci : Nat) (res : Nat × Option String)
deriving DecidableEq

inductive WState
  | toRun (ci : Nat)
  | toPublish (ci : Nat)
  | finished (ci : Nat)
deriving DecidableEq

structure SFConf where
  entry : Option Nat
  calls : List SFCall
  threads : List TState
  workers : List WState
  counter : Nat
deriving DecidableEq

/-- The call a worker belongs to. -/
def wCi : WState → Nat
  | .toRun ci => ci
  | .toPublish ci => ci
  | .finished ci => ci

/-- Has the worker already executed the thunk? -/
def wRanB : WState → Bool
  | .toRun _ => false
  | .toPublish _ => true
  | .finished _ => true

/-- Number of thunk executions performed by the workers so far. -/
def ranCount : List WState → Nat
  | [] => 0
  | w :: rest => (if wRanB w then 1 else 0) + ranCount rest

/-- The thread owns (created) the given call and has not disappeared:
leaders keep their identity through `done`. -/
def isLeaderOf (ci : Nat) : TState → Prop
  | .leaderSpawn ci' => ci' = ci
  | .leaderWait ci' => ci' = ci
  | .leaderDel ci' => ci' = ci
  | .done true ci' _ => ci' = ci
  | _ => False

/-- The leader of the call has already spawned its worker goroutine. -/
def pastSpawn (ci : Nat) : TState → Prop
  | .leaderWait ci' => ci' = ci
  | .leaderDel ci' => ci' = ci
  | .done true ci' _ => ci' = ci
  | _ => False

/-- One interleaving step of the N callers and their spawned workers. -/
inductive SFStep : SFConf → SFConf → Prop
  | join (c : SFConf) (i ci : Nat)
      (ht : c.threads.get? i = some .start)
      (he : c.entry = some ci) :
      SFStep c { c with threads := c.threads.set i (.waiting ci) }
  | lead (c : SFConf) (i : Nat)
      (ht : c.threads.get? i = some .start)
      (he : c.entry = none) :
      SFStep c { c with
        entry := some c.calls.length,
        calls := c.calls ++ [⟨0, none, false⟩],
        threads := c.threads.set i (.leaderSpawn c.calls.length) }
  | spawn (c : SFConf) (i ci : Nat)
      (ht : c.threads.get? i = some (.leaderSpawn ci)) :
      SFStep c { c with
        workers := c.workers ++ [.toRun ci],
        threads := c.threads.set i (.leaderWait ci) }
  | runThunk (c : SFConf) (j ci : Nat) (call : SFCall)
      (hw : c.workers.get? j = some (.toRun ci))
      (hc : c.calls.get? ci = some call) :
      SFStep c { c with
        counter := c.counter + 1,
        calls := c.calls.set ci { call with val := c.counter + 1, err := none },
        workers := c.workers.set j (.toPublish ci) }
  | publish (c : SFConf) (j ci : Nat) (call : SFCall)
      (hw : c.workers.get? j = some (.toPublish ci))
      (hc : c.calls.get? ci = some call) :
      SFStep c { c with
        calls := c.calls.set ci { call with published := true },
        workers := c.workers.set j (.finished ci) }
  | leaderUnblock (c : SFConf) (i ci : Nat) (call : SFCall)
      (ht : c.threads.get? i = some (.leaderWait ci))
      (hc : c.calls.get? ci = some call)
      (hp : call.published = true) :
      SFStep c { c with threads := c.threads.set i (.leaderDel ci) }
  | deleteEntry (c : SFConf) (i ci : Nat) (call : SFCall)
      (ht : c.threads.get? i = some (.leaderDel ci))
      (hc : c.calls.get? ci = some call) :
      SFStep c { c with
        entry := none,
        threads := c.threads.set i (.done true ci (call.val, call.err)) }
  | joinerUnblock (c : SFConf) (i ci : Nat) (call : SFCall)
      (ht : c.threads.get? i = some (.waiting ci))
      (hc : c.calls.get? ci = some call)
      (hp : call.published = true) :
      SFStep c { c with
        threads := c.threads.set i (.done false ci (call.val, call.err)) }

/-- N callers about to enter `Do(k, thunk)`, nothing in flight. -/
def SFInit (n : Nat) : SFConf :=
  { entry := none, calls := [], threads := List.replicate n .start,
    workers := [], counter := 0 }

/-- Reachability of a configuration of the N-caller burst. -/
def SFReach (n : Nat) (c : SFConf) : Prop :=
  Relation.ReflTransGen SFStep (SFInit n) c

/-- Per-thread facts of the global invariant. -/
def TOk (c : SFConf) : TState → Prop
  | .start => True
  | .leaderSpawn ci => ci < c.calls.length
  | .leaderWait ci => ci < c.calls.length ∧
      ∃ j w, c.workers.get? j = some w ∧ wCi w = ci
  | .leaderDel ci =>
      (∃ call, c.calls.get? ci = some call ∧ call.published = true) ∧
      ∃ j w, c.workers.get? j = some w ∧ wCi w = ci
  | .waiting ci => ci < c.calls.length
  | .done lead ci res =>
      (∃ call, c.calls.get? ci = some call ∧ call.published = true ∧
        res = (call.val, call.err)) ∧
      (lead = true → ∃ j w, c.workers.get? j = some w ∧ wCi w = ci)

/-- The global invariant of the single-flight machine. -/
structure SFInv (n : Nat) (c : SFConf) : Prop where
  tlen : c.threads.length = n
  entryLt : ∀ ci, c.entry = some ci → ci < c.calls.length
  leaderEx : ∀ ci, ci < c.calls.length →
    ∃ i t, c.threads.get? i = some t ∧ isLeaderOf ci t
  leaderUniq : ∀ i j ci ti tj, c.threads.get? i = some ti →
    c.threads.get? j = some tj → isLeaderOf ci ti → isLeaderOf ci tj → i = j
  tok : ∀ t ∈ c.threads, TOk c t
  wLt : ∀ w ∈ c.workers, wCi w < c.calls.length
  wLeader : ∀ w ∈ c.workers, ∃ i t, c.threads.get? i = some t ∧
    pastSpawn (wCi w) t
  wUniq : ∀ j k wj wk, c.workers.get? j = some wj →
    c.workers.get? k = some wk → wCi wj = wCi wk → j = k
  pubFin : ∀ ci call, c.calls.get? ci = some call → call.published = true →
    ∃ j, c.workers.get? j = some (WState.finished ci)
  cnt : c.counter = ranCount c.workers
  vBound : ∀ ci call, c.calls.get? ci = some call →
    (∃ j w, c.workers.get? j = some w ∧ wRanB w = true ∧ wCi w = ci) →
    call.err = none ∧ 1 ≤ call.val ∧ call.val ≤ c.counter

/-- A concrete two-caller burst, step by step: caller 0 leads, caller 1
joins the in-flight call, the worker runs the thunk and publishes, the
leader deletes the entry, and both callers return (1, nil). -/
def sfDemo1 : SFConf :=
  { entry := some 0, calls := [⟨0, none, false⟩],
    threads := [.leaderSpawn 0, .start], workers := [], counter := 0 }

def sfDemo2 : SFConf :=
  { entry := some 0, calls := [⟨0, none, false⟩],
    threads := [.leaderSpawn 0, .waiting 0], workers := [], counter := 0 }

def sfDemo3 : SFConf :=
  { entry := some 0, calls := [⟨0, none, false⟩],
    threads := [.leaderWait 0, .waiting 0], workers := [.toRun 0],
    counter := 0 }

def sfDemo4 : SFConf :=
  { entry := some 0, calls := [⟨1, none, false⟩],
    threads := [.leaderWait 0, .waiting 0], workers := [.toPublish 0],
    counter := 1 }

def sfDemo5 : SFConf :=
  { entry := some 0, calls := [⟨1, none, true⟩],
    threads := [.leaderWait 0, .waiting 0], workers := [.finished 0],
    counter := 1 }

def sfDemo6 : SFConf :=
  { entry := some 0, calls := [⟨1, none, true⟩],
    threads := [.leaderDel 0, .waiting 0], workers := [.finished 0],
    counter := 1 }

def sfDemo7 : SFConf :=
  { entry := none, calls := [⟨1, none, true⟩],
    threads := [.done true 0 (1, none), .waiting 0],
    workers := [.finished 0], counter := 1 }

def sfDemo8 : SFConf :=
  { entry := none, calls := [⟨1, none, true⟩],
    threads := [.done true 0 (1, none), .done false 0 (1, none)],
    workers := [.finished 0], counter := 1 }

/-! ### Accounting lemmas for the LRU store -/

lemma sumSize_back {V : Type} (vLen : V → Nat) :
    ∀ (ll : List (String × V)) (p : String × V), backOf ll = some p →
      sumSize vLen ll = sumSize vLen (dropBack ll) + entrySize vLen p
  | [], p, h => by simp [backOf] at h
  | [x], p, h => by
    simp [backOf] at h
    subst h
    simp [sumSize, dropBack]
  | x :: y :: rest, p, h => by
    have ih := sumSize_back vLen (y :: rest) p (by simpa [backOf] using h)
    simp only [sumSize, dropBack] at *
    omega

lemma length_dropBack {α : Type} :
    ∀ (ll : List α) (p : α), backOf ll = some p →
      (dropBack ll).length + 1 = ll.length
  | [], p, h => by simp [backOf] at h
  | [x], p, h => by simp [dropBack]
  | x :: y :: rest, p, h => by
    have ih := length_dropBack (y :: rest) p (by simpa [backOf] using h)
    simp only [dropBack, List.length_cons] at *
    omega

lemma backOf_isSome_of_ne_nil {α : Type} :
    ∀ (ll : List α), ll ≠ [] → ∃ p, backOf ll = some p
  | [], h => absurd rfl h
  | [x], _ => ⟨x, rfl⟩
  | x :: y :: rest, _ =>
    backOf_isSome_of_ne_nil (y :: rest) (by simp)

/-- RemoveOldest preserves the accounting equation and the budget field. -/
lemma removeOldest_inv {V : Type} (vLen : V → Nat) (c : LruCache V)
    (hacc : c.nbytes = sumSize vLen c.ll) :
    (c.removeOldest vLen).nbytes = sumSize vLen (c.removeOldest vLen).ll ∧
    (c.removeOldest vLen).maxBytes = c.maxBytes := by
  unfold LruCache.removeOldest
  cases hb : backOf c.ll with
  | none => exact ⟨hacc, rfl⟩
  | some p =>
    have := sumSize_back vLen c.ll p hb
    constructor
    · simp only [hacc, this]
      omega
    · rfl

/-- If the eviction-loop condition is false on entry, the loop is a no-op. -/
lemma evictLoop_of_not {V : Type} (vLen : V → Nat) (fuel : Nat)
    (c : LruCache V) (h : ¬ (c.maxBytes ≠ 0 ∧ c.maxBytes < c.nbytes)) :
    evictLoop vLen fuel c = c := by
  cases fuel with
  | zero => rfl
  | succ n => simp [evictLoop, h]

/-- With a positive budget, correct accounting and enough fuel, the eviction
loop drives `nbytes` at or below the budget: each iteration shortens the
list by one node, and an empty list has `nbytes = 0`. -/
lemma evictLoop_le {V : Type} (vLen : V → Nat) :
    ∀ (fuel : Nat) (c : LruCache V),
      c.nbytes = sumSize vLen c.ll → 0 < c.maxBytes →
      c.ll.length ≤ fuel →
      (evictLoop vLen fuel c).nbytes ≤ c.maxBytes
  | 0, c, hacc, hpos, hlen => by
    have hnil : c.ll = [] := List.length_eq_zero.mp (Nat.le_zero.mp hlen)
    simp only [evictLoop]
    rw [hacc, hnil]
    simp [sumSize]
    omega
  | fuel + 1, c, hacc, hpos, hlen => by
    by_cases hcond : c.maxBytes ≠ 0 ∧ c.maxBytes < c.nbytes
    · have hne : c.ll ≠ [] := by
        intro hnil
        rw [hnil] at hacc
        simp [sumSize] at hacc
        omega
      obtain ⟨p, hp⟩ := backOf_isSome_of_ne_nil c.ll hne
      have hinv := removeOldest_inv vLen c hacc
      have hlen' : (c.removeOldest vLen).ll.length ≤ fuel := by
        have hdb := length_dropBack c.ll p hp
        have hll : (c.removeOldest vLen).ll = dropBack c.ll := by
          unfold LruCache.removeOldest
          rw [hp]
        rw [hll]
        omega
      have ih := evictLoop_le vLen fuel (c.removeOldest vLen) hinv.1
        (by rw [hinv.2]; exact hpos) hlen'
      rw [hinv.2] at ih
      simp only [evictLoop]
      rw [if_pos hcond]
      exact ih
    · rw [evictLoop_of_not vLen (fuel + 1) c hcond]
      push_neg at hcond
      exact hcond (by omega)

/-- The eviction loop preserves the accounting equation and the budget. -/
lemma evictLoop_inv {V : Type} (vLen : V → Nat) :
    ∀ (fuel : Nat) (c : LruCache V), c.nbytes = sumSize vLen c.ll →
      (evictLoop vLen fuel c).nbytes = sumSize vLen (evictLoop vLen fuel c).ll ∧
      (evictLoop vLen fuel c).maxBytes = c.maxBytes
  | 0, c, hacc => ⟨hacc, rfl⟩
  | fuel + 1, c, hacc => by
    by_cases hcond : c.maxBytes ≠ 0 ∧ c.maxBytes < c.nbytes
    · have hinv := removeOldest_inv vLen c hacc
      have ih := evictLoop_inv vLen fuel (c.removeOldest vLen) hinv.1
      simp only [evictLoop]
      rw [if_pos hcond]
      exact ⟨ih.1, ih.2.trans hinv.2⟩
    · simp only [evictLoop]
      rw [if_neg hcond]
      exact ⟨hacc, rfl⟩

/-- Re-adding an existing key changes `sumSize` by the value-size delta. -/
lemma sumSize_promote {V : Type} (vLen : V → Nat) :
    ∀ (ll : List (String × V)) (k : String) (v vOld : V),
      findVal ll k = some vOld →
      sumSize vLen ((k, v) :: removeFirstKey ll k) =
        sumSize vLen ll + ((vLen v : Int) - (vLen vOld : Int))
  | [], k, v, vOld, h => by simp [findVal] at h
  | (k0, w) :: rest, k, v, vOld, h => by
    by_cases hk : k0 = k
    · subst hk
      have hv : w = vOld := by simpa [findVal] using h
      subst hv
      simp [removeFirstKey, sumSize, entrySize]
      omega
    · have h' : findVal rest k = some vOld := by
        simpa [findVal, hk] using h
      have ih := sumSize_promote vLen rest k v vOld h'
      simp only [removeFirstKey, if_neg hk, sumSize] at *
      omega

/-- Add preserves the accounting equation and the budget field. -/
lemma add_inv {V : Type} (vLen : V → Nat) (c : LruCache V) (k : String) (v : V)
    (hacc : c.nbytes = sumSize vLen c.ll) :
    (c.add vLen k v).nbytes = sumSize vLen (c.add vLen k v).ll ∧
    (c.add vLen k v).maxBytes = c.maxBytes := by
  unfold LruCache.add
  cases hf : findVal c.ll k with
  | some vOld =>
    have hps := sumSize_promote vLen c.ll k v vOld hf
    exact evictLoop_inv vLen _ _ (by simp only [hacc, hps])
  | none =>
    exact evictLoop_inv vLen _ _ (by simp only [sumSize, entrySize, hacc]; omega)

/-- With a positive budget and correct accounting, Add leaves the store
within budget. -/
lemma add_le {V : Type} (vLen : V → Nat) (c : LruCache V) (k : String) (v : V)
    (hacc : c.nbytes = sumSize vLen c.ll) (hpos : 0 < c.maxBytes) :
    (c.add vLen k v).nbytes ≤ c.maxBytes := by
  unfold LruCache.add
  cases hf : findVal c.ll k with
  | some vOld =>
    have hps := sumSize_promote vLen c.ll k v vOld hf
    exact evictLoop_le vLen _ _ (by simp only [hacc, hps]) hpos le_rfl
  | none =>
    exact evictLoop_le vLen _ _ (by simp only [sumSize, entrySize, hacc]; omega)
      hpos le_rfl

/-! ### Association-list (Go map) lemmas -/

lemma findVal_removeFirstKey_ne {K G : Type} [DecidableEq K] :
    ∀ (m : List (K × G)) (k k' : K), k' ≠ k →
      findVal (removeFirstKey m k) k' = findVal m k'
  | [], _, _, _ => rfl
  | p :: rest, k, k', h => by
    by_cases hp : p.1 = k
    · have hkk' : ¬ (k = k') := fun hh => h hh.symm
      simp [removeFirstKey, findVal, hp, hkk']
    · simp only [removeFirstKey, if_neg hp, findVal]
      by_cases hp' : p.1 = k'
      · simp [hp']
      · simp [hp', findVal_removeFirstKey_ne rest k k' h]

lemma findVal_mapSet_self {K G : Type} [DecidableEq K]
    (m : List (K × G)) (k : K) (g : G) :
    findVal (mapSet m k g) k = some g := by
  simp [mapSet, findVal]

lemma findVal_mapSet_ne {K G : Type} [DecidableEq K]
    (m : List (K × G)) (k k' : K) (g : G) (h : k' ≠ k) :
    findVal (mapSet m k g) k' = findVal m k' := by
  simp only [mapSet, findVal, if_neg (fun hh : k = k' => h hh.symm)]
  exact findVal_removeFirstKey_ne m k k' h

/-- Folding a sequence of Adds from a well-accounted state with a positive
budget keeps `nbytes ≤ maxBytes`. -/
lemma foldl_add_le {V : Type} (vLen : V → Nat) (maxB : Int) (hpos : 0 < maxB) :
    ∀ (ops : List (String × V)) (c : LruCache V),
      c.nbytes = sumSize vLen c.ll → c.maxBytes = maxB → c.nbytes ≤ maxB →
      (ops.foldl (fun a p => a.add vLen p.1 p.2) c).nbytes ≤ maxB
  | [], c, _, _, hle => hle
  | p :: rest, c, hacc, hmax, _ => by
    have hinv := add_inv vLen c p.1 p.2 hacc
    have hle' := add_le vLen c p.1 p.2 hacc (hmax ▸ hpos)
    exact foldl_add_le vLen maxB hpos rest (c.add vLen p.1 p.2) hinv.1
      (hinv.2.trans hmax) (hmax ▸ hle')

/-- Re-adding an existing key when the adjusted total still fits the budget
(or the budget is 0, i.e. unlimited) runs no eviction, so `nbytes` moves by
exactly the value-size delta. -/
lemma add_existing_nofire {V : Type} (vLen : V → Nat) (c : LruCache V)
    (k : String) (vNew vOld : V) (hfind : findVal c.ll k = some vOld)
    (hfit : c.maxBytes = 0 ∨
      c.nbytes + ((vLen vNew : Int) - (vLen vOld : Int)) ≤ c.maxBytes) :
    (c.add vLen k vNew).nbytes =
      c.nbytes + ((vLen vNew : Int) - (vLen vOld : Int)) := by
  have hstep : c.add vLen k vNew =
      evictLoop vLen ((k, vNew) :: removeFirstKey c.ll k).length
        { c with ll := (k, vNew) :: removeFirstKey c.ll k,
                 nbytes := c.nbytes + ((vLen vNew : Int) - (vLen vOld : Int)) } := by
    simp [LruCache.add, hfind]
  rw [hstep, evictLoop_of_not]
  simp only
  rcases hfit with h | h
  · intro hc
    exact hc.1 h
  · intro hc
    omega

/-! ### Single-flight machine: invariant proofs -/

lemma get?_lt {α : Type} {l : List α} {i : Nat} {a : α}
    (h : l.get? i = some a) : i < l.length :=
  (List.get?_eq_some.mp h).choose

lemma get?_exists {α : Type} (l : List α) (i : Nat) (h : i < l.length) :
    ∃ a, l.get? i = some a :=
  ⟨l.get ⟨i, h⟩, List.get?_eq_get h⟩

lemma ranCount_append (l : List WState) (w : WState) :
    ranCount (l ++ [w]) = ranCount l + (if wRanB w then 1 else 0) := by
  induction l with
  | nil => simp [ranCount]
  | cons a rest ih =>
    have hstep : ranCount ((a :: rest) ++ [w]) =
        (if wRanB a then 1 else 0) + ranCount (rest ++ [w]) := rfl
    rw [hstep, ih]
    simp only [ranCount]
    omega

lemma ranCount_set :
    ∀ (l : List WState) (j : Nat) (w w' : WState), l.get? j = some w →
      ranCount (l.set j w') + (if wRanB w then 1 else 0) =
        ranCount l + (if wRanB w' then 1 else 0)
  | [], j, w, w', h => by simp [List.get?] at h
  | x :: rest, 0, w, w', h => by
    have hx : x = w := by simpa [List.get?] using h
    subst hx
    simp only [List.set, ranCount]
    omega
  | x :: rest, j + 1, w, w', h => by
    have ih := ranCount_set rest j w w' (by simpa [List.get?] using h)
    simp only [List.set, ranCount]
    omega

/-- Replacing a worker by one for the same call preserves "some worker
belongs to call x". -/
lemma exists_wci_set {l : List WState} {j : Nat} {w w' : WState}
    (hw : l.get? j = some w) (hsame : wCi w' = wCi w) (x : Nat)
    (h : ∃ k u, l.get? k = some u ∧ wCi u = x) :
    ∃ k u, (l.set j w').get? k = some u ∧ wCi u = x := by
  obtain ⟨k, u, hk, hx⟩ := h
  by_cases hkj : k = j
  · subst hkj
    have : u = w := by rw [hk] at hw; exact Option.some.inj hw
    subst this
    exact ⟨k, w', List.get?_set_eq_of_lt w' (get?_lt hk), hsame.trans hx⟩
  · exact ⟨k, u, by rw [List.get?_set_ne _ _ (fun hh => hkj hh.symm)]; exact hk, hx⟩

/-- A leader's call exists in the arena. -/
lemma leader_lt {n : Nat} {c : SFConf} (hinv : SFInv n c) {t : TState}
    (hmem : t ∈ c.threads) {ci : Nat} (hl : isLeaderOf ci t) :
    ci < c.calls.length := by
  have htok := hinv.tok t hmem
  cases t with
  | start => exact absurd hl (by simp [isLeaderOf])
  | leaderSpawn ci' => rw [show ci' = ci from hl] at htok; exact htok
  | leaderWait ci' => rw [show ci' = ci from hl] at htok; exact htok.1
  | leaderDel ci' =>
    obtain ⟨⟨call, hc, _⟩, _⟩ := htok
    rw [show ci' = ci from hl] at hc
    exact get?_lt hc
  | waiting ci' => exact absurd hl (by simp [isLeaderOf])
  | done lead ci' res =>
    cases lead with
    | false => exact absurd hl (by simp [isLeaderOf])
    | true =>
      obtain ⟨⟨call, hc, _, _⟩, _⟩ := htok
      rw [show ci' = ci from hl] at hc
      exact get?_lt hc

/-- The invariant holds initially. -/
lemma sfinv_init (n : Nat) : SFInv n (SFInit n) := by
  refine ⟨?_, ?_, ?_, ?_, ?_, ?_, ?_, ?_, ?_, ?_, ?_⟩
  · simp [SFInit]
  · intro ci h
    simp [SFInit] at h
  · intro ci h
    simp [SFInit] at h
  · intro i j ci ti tj hgi hgj hli hlj
    have : ti = TState.start := by
      have := List.get?_mem hgi
      exact List.eq_of_mem_replicate this
    rw [this] at hli
    exact absurd hli (by simp [isLeaderOf])
  · intro t ht
    have : t = TState.start := List.eq_of_mem_replicate ht
    rw [this]
    trivial
  · intro w hw
    simp [SFInit] at hw
  · intro w hw
    simp [SFInit] at hw
  · intro j k wj wk hj hk
    simp [SFInit, List.get?] at hj
  · intro ci call hc
    simp [SFInit, List.get?] at hc
  · simp [SFInit, ranCount]
  · intro ci call hc
    simp [SFInit, List.get?] at hc

lemma get?_set_ne' {α : Type} (l : List α) (i k : Nat) (v : α) (h : k ≠ i) :
    (l.set i v).get? k = l.get? k :=
  List.get?_set_ne _ _ (fun hh => h hh.symm)

lemma get?_set_cases {α : Type} {l : List α} {i : Nat} {v : α} {k : Nat}
    {a : α} (h : (l.set i v).get? k = some a) :
    (k = i ∧ a = v ∧ i < l.length) ∨ (k ≠ i ∧ l.get? k = some a) := by
  by_cases hk : k = i
  · subst hk
    have hlt : k < l.length := by
      have := get?_lt h
      simpa [List.length_set] using this
    rw [List.get?_set_eq_of_lt v hlt] at h
    exact Or.inl ⟨rfl, (Option.some.inj h).symm, hlt⟩
  · exact Or.inr ⟨hk, by rw [get?_set_ne' l i k v hk] at h; exact h⟩

/-- Invariant preservation: a joiner finds the in-flight entry. -/
lemma sfinv_join {n : Nat} {c : SFConf} (hinv : SFInv n c) {i ci : Nat}
    (ht : c.threads.get? i = some .start) (he : c.entry = some ci) :
    SFInv n { c with threads := c.threads.set i (.waiting ci) } := by
  have hci : ci < c.calls.length := hinv.entryLt ci he
  refine ⟨?_, hinv.entryLt, ?_, ?_, ?_, hinv.wLt, ?_, hinv.wUniq,
    hinv.pubFin, hinv.cnt, hinv.vBound⟩
  · simpa [List.length_set] using hinv.tlen
  · intro ci' h
    obtain ⟨i0, t0, hg0, hl0⟩ := hinv.leaderEx ci' h
    have hi0 : i0 ≠ i := by
      intro hh
      subst hh
      rw [ht] at hg0
      rw [← Option.some.inj hg0] at hl0
      exact hl0
    refine ⟨i0, t0, ?_, hl0⟩
    show (c.threads.set i _).get? i0 = some t0
    rw [get?_set_ne' _ _ _ _ hi0]
    exact hg0
  · intro i' j' ci' ti tj hgi hgj hli hlj
    rcases get?_set_cases hgi with ⟨_, hv, _⟩ | ⟨_, hgi'⟩
    · rw [hv] at hli
      exact absurd hli (by simp [isLeaderOf])
    · rcases get?_set_cases hgj with ⟨_, hv, _⟩ | ⟨_, hgj'⟩
      · rw [hv] at hlj
        exact absurd hlj (by simp [isLeaderOf])
      · exact hinv.leaderUniq i' j' ci' ti tj hgi' hgj' hli hlj
  · intro t htmem
    rcases List.mem_or_eq_of_mem_set htmem with hold | hnew
    · exact hinv.tok t hold
    · rw [hnew]
      exact hci
  · intro w hw
    obtain ⟨i0, t0, hg0, hp0⟩ := hinv.wLeader w hw
    have hi0 : i0 ≠ i := by
      intro hh
      subst hh
      rw [ht] at hg0
      rw [← Option.some.inj hg0] at hp0
      exact hp0
    refine ⟨i0, t0, ?_, hp0⟩
    show (c.threads.set i _).get? i0 = some t0
    rw [get?_set_ne' _ _ _ _ hi0]
    exact hg0

/-- Invariant preservation: a joiner's `wg.Wait` returns and it reads the
published result. -/
lemma sfinv_joinerUnblock {n : Nat} {c : SFConf} (hinv : SFInv n c)
    {i ci : Nat} {call : SFCall}
    (ht : c.threads.get? i = some (.waiting ci))
    (hc : c.calls.get? ci = some call) (hp : call.published = true) :
    SFInv n { c with
      threads := c.threads.set i (.done false ci (call.val, call.err)) } := by
  refine ⟨?_, hinv.entryLt, ?_, ?_, ?_, hinv.wLt, ?_, hinv.wUniq,
    hinv.pubFin, hinv.cnt, hinv.vBound⟩
  · simpa [List.length_set] using hinv.tlen
  · intro ci' h
    obtain ⟨i0, t0, hg0, hl0⟩ := hinv.leaderEx ci' h
    have hi0 : i0 ≠ i := by
      intro hh
      subst hh
      rw [ht] at hg0
      rw [← Option.some.inj hg0] at hl0
      exact hl0
    refine ⟨i0, t0, ?_, hl0⟩
    show (c.threads.set i _).get? i0 = some t0
    rw [get?_set_ne' _ _ _ _ hi0]
    exact hg0
  · intro i' j' ci' ti tj hgi hgj hli hlj
    rcases get?_set_cases hgi with ⟨_, hv, _⟩ | ⟨_, hgi'⟩
    · rw [hv] at hli
      exact absurd hli (by simp [isLeaderOf])
    · rcases get?_set_cases hgj with ⟨_, hv, _⟩ | ⟨_, hgj'⟩
      · rw [hv] at hlj
        exact absurd hlj (by simp [isLeaderOf])
      · exact hinv.leaderUniq i' j' ci' ti tj hgi' hgj' hli hlj
  · intro t htmem
    rcases List.mem_or_eq_of_mem_set htmem with hold | hnew
    · exact hinv.tok t hold
    · rw [hnew]
      exact ⟨⟨call, hc, hp, rfl⟩, fun hfalse => Bool.noConfusion hfalse⟩
  · intro w hw
    obtain ⟨i0, t0, hg0, hp0⟩ := hinv.wLeader w hw
    have hi0 : i0 ≠ i := by
      intro hh
      subst hh
      rw [ht] at hg0
      rw [← Option.some.inj hg0] at hp0
      exact hp0
    refine ⟨i0, t0, ?_, hp0⟩
    show (c.threads.set i _).get? i0 = some t0
    rw [get?_set_ne' _ _ _ _ hi0]
    exact hg0

/-- Invariant preservation: the leader's `wg.Wait` returns. -/
lemma sfinv_leaderUnblock {n : Nat} {c : SFConf} (hinv : SFInv n c)
    {i ci : Nat} {call : SFCall}
    (ht : c.threads.get? i = some (.leaderWait ci))
    (hc : c.calls.get? ci = some call) (hp : call.published = true) :
    SFInv n { c with threads := c.threads.set i (.leaderDel ci) } := by
  have holdtok := hinv.tok _ (List.get?_mem ht)
  refine ⟨?_, hinv.entryLt, ?_, ?_, ?_, hinv.wLt, ?_, hinv.wUniq,
    hinv.pubFin, hinv.cnt, hinv.vBound⟩
  · simpa [List.length_set] using hinv.tlen
  · intro ci' h
    obtain ⟨i0, t0, hg0, hl0⟩ := hinv.leaderEx ci' h
    by_cases hi0 : i0 = i
    · subst hi0
      rw [ht] at hg0
      rw [← Option.some.inj hg0] at hl0
      refine ⟨i0, .leaderDel ci, ?_, hl0⟩
      exact List.get?_set_eq_of_lt _ (get?_lt ht)
    · refine ⟨i0, t0, ?_, hl0⟩
      show (c.threads.set i _).get? i0 = some t0
      rw [get?_set_ne' _ _ _ _ hi0]
      exact hg0
  · intro i' j' ci' ti tj hgi hgj hli hlj
    rcases get?_set_cases hgi with ⟨hie, hv, _⟩ | ⟨_, hgi'⟩
    · rcases get?_set_cases hgj with ⟨hje, hv', _⟩ | ⟨_, hgj'⟩
      · rw [hie, hje]
      · rw [hv] at hli
        subst hie
        exact hinv.leaderUniq i' j' ci' (.leaderWait ci) tj ht hgj' hli hlj
    · rcases get?_set_cases hgj with ⟨hje, hv', _⟩ | ⟨_, hgj'⟩
      · rw [hv'] at hlj
        subst hje
        exact hinv.leaderUniq i' j' ci' ti (.leaderWait ci) hgi' ht hli hlj
      · exact hinv.leaderUniq i' j' ci' ti tj hgi' hgj' hli hlj
  · intro t htmem
    rcases List.mem_or_eq_of_mem_set htmem with hold | hnew
    · exact hinv.tok t hold
    · rw [hnew]
      exact ⟨⟨call, hc, hp⟩, holdtok.2⟩
  · intro w hw
    obtain ⟨i0, t0, hg0, hp0⟩ := hinv.wLeader w hw
    by_cases hi0 : i0 = i
    · subst hi0
      rw [ht] at hg0
      rw [← Option.some.inj hg0] at hp0
      refine ⟨i0, .leaderDel ci, ?_, hp0⟩
      exact List.get?_set_eq_of_lt _ (get?_lt ht)
    · refine ⟨i0, t0, ?_, hp0⟩
      show (c.threads.set i _).get? i0 = some t0
      rw [get?_set_ne' _ _ _ _ hi0]
      exact hg0

/-- Invariant preservation: the leader deletes the map entry and returns
the published result. -/
lemma sfinv_deleteEntry {n : Nat} {c : SFConf} (hinv : SFInv n c)
    {i ci : Nat} {call : SFCall}
    (ht : c.threads.get? i = some (.leaderDel ci))
    (hc : c.calls.get? ci = some call) :
    SFInv n { c with entry := none, threads := c.threads.set i (.done true ci (call.val, call.err)) } := by
  have holdtok := hinv.tok _ (List.get?_mem ht)
  obtain ⟨⟨call0, hc0, hp0⟩, hwex⟩ := holdtok
  have hcall0 : call0 = call := by
    rw [hc0] at hc
    exact Option.some.inj hc
  rw [hcall0] at hp0
  refine ⟨?_, ?_, ?_, ?_, ?_, hinv.wLt, ?_, hinv.wUniq,
    hinv.pubFin, hinv.cnt, hinv.vBound⟩
  · simpa [List.length_set] using hinv.tlen
  · intro ci' h
    exact Option.noConfusion h
  · intro ci' h
    obtain ⟨i0, t0, hg0, hl0⟩ := hinv.leaderEx ci' h
    by_cases hi0 : i0 = i
    · subst hi0
      rw [ht] at hg0
      rw [← Option.some.inj hg0] at hl0
      refine ⟨i0, .done true ci (call.val, call.err), ?_, hl0⟩
      exact List.get?_set_eq_of_lt _ (get?_lt ht)
    · refine ⟨i0, t0, ?_, hl0⟩
      show (c.threads.set i _).get? i0 = some t0
      rw [get?_set_ne' _ _ _ _ hi0]
      exact hg0
  · intro i' j' ci' ti tj hgi hgj hli hlj
    rcases get?_set_cases hgi with ⟨hie, hv, _⟩ | ⟨_, hgi'⟩
    · rcases get?_set_cases hgj with ⟨hje, hv', _⟩ | ⟨_, hgj'⟩
      · rw [hie, hje]
      · rw [hv] at hli
        subst hie
        exact hinv.leaderUniq i' j' ci' (.leaderDel ci) tj ht hgj' hli hlj
    · rcases get?_set_cases hgj with ⟨hje, hv', _⟩ | ⟨_, hgj'⟩
      · rw [hv'] at hlj
        subst hje
        exact hinv.leaderUniq i' j' ci' ti (.leaderDel ci) hgi' ht hli hlj
      · exact hinv.leaderUniq i' j' ci' ti tj hgi' hgj' hli hlj
  · intro t htmem
    rcases List.mem_or_eq_of_mem_set htmem with hold | hnew
    · exact hinv.tok t hold
    · rw [hnew]
      exact ⟨⟨call, hc, hp0, rfl⟩, fun _ => hwex⟩
  · intro w hw
    obtain ⟨i0, t0, hg0, hp'⟩ := hinv.wLeader w hw
    by_cases hi0 : i0 = i
    · subst hi0
      rw [ht] at hg0
      rw [← Option.some.inj hg0] at hp'
      refine ⟨i0, .done true ci (call.val, call.err), ?_, hp'⟩
      exact List.get?_set_eq_of_lt _ (get?_lt ht)
    · refine ⟨i0, t0, ?_, hp'⟩
      show (c.threads.set i _).get? i0 = some t0
      rw [get?_set_ne' _ _ _ _ hi0]
      exact hg0

lemma pastSpawn_isLeaderOf {ci : Nat} {t : TState} (h : pastSpawn ci t) :
    isLeaderOf ci t := by
  cases t with
  | leaderWait ci' => exact h
  | leaderDel ci' => exact h
  | done lead ci' res =>
    cases lead with
    | true => exact h
    | false => exact h.elim
  | start => exact h.elim
  | leaderSpawn ci' => exact h.elim
  | waiting ci' => exact h.elim

lemma get?_append_one_cases {α : Type} {l : List α} {x : α} {k : Nat}
    {a : α} (h : (l ++ [x]).get? k = some a) :
    (k < l.length ∧ l.get? k = some a) ∨ (k = l.length ∧ a = x) := by
  by_cases hk : k < l.length
  · exact Or.inl ⟨hk, by rw [List.get?_append hk] at h; exact h⟩
  · have hlt := get?_lt h
    rw [List.length_append, List.length_singleton] at hlt
    have hke : k = l.length := by omega
    subst hke
    rw [List.get?_concat_length] at h
    exact Or.inr ⟨rfl, (Option.some.inj h).symm⟩

/-- Invariant preservation: a caller becomes the leader, allocating the
call and installing the map entry. -/
lemma sfinv_lead {n : Nat} {c : SFConf} (hinv : SFInv n c) {i : Nat}
    (ht : c.threads.get? i = some .start) (_he : c.entry = none) :
    SFInv n { c with entry := some c.calls.length, calls := c.calls ++ [⟨0, none, false⟩], threads := c.threads.set i (.leaderSpawn c.calls.length) } := by
  refine ⟨?_, ?_, ?_, ?_, ?_, ?_, ?_, hinv.wUniq, ?_, hinv.cnt, ?_⟩
  · simpa [List.length_set] using hinv.tlen
  · intro ci h
    have hci : ci = c.calls.length := (Option.some.inj h).symm
    subst hci
    simp [List.length_append]
  · intro ci h
    by_cases hci : ci < c.calls.length
    · obtain ⟨i0, t0, hg0, hl0⟩ := hinv.leaderEx ci hci
      have hi0 : i0 ≠ i := by
        intro hh
        subst hh
        rw [ht] at hg0
        rw [← Option.some.inj hg0] at hl0
        exact hl0
      refine ⟨i0, t0, ?_, hl0⟩
      show (c.threads.set i _).get? i0 = some t0
      rw [get?_set_ne' _ _ _ _ hi0]
      exact hg0
    · have hlen : ci < c.calls.length + 1 := by
        simpa [List.length_append] using h
      have hci' : ci = c.calls.length := by omega
      subst hci'
      refine ⟨i, .leaderSpawn c.calls.length, ?_, rfl⟩
      exact List.get?_set_eq_of_lt _ (get?_lt ht)
  · intro i' j' ci' ti tj hgi hgj hli hlj
    rcases get?_set_cases hgi with ⟨hie, hv, _⟩ | ⟨_, hgi'⟩
    · rcases get?_set_cases hgj with ⟨hje, hv', _⟩ | ⟨_, hgj'⟩
      · rw [hie, hje]
      · rw [hv] at hli
        have hci' : ci' = c.calls.length := hli.symm ▸ hli
        have hlt := leader_lt hinv (List.get?_mem hgj') hlj
        rw [← hli] at hlt
        exact absurd hlt (lt_irrefl _)
    · rcases get?_set_cases hgj with ⟨hje, hv', _⟩ | ⟨_, hgj'⟩
      · rw [hv'] at hlj
        have hlt := leader_lt hinv (List.get?_mem hgi') hli
        rw [← hlj] at hlt
        exact absurd hlt (lt_irrefl _)
      · exact hinv.leaderUniq i' j' ci' ti tj hgi' hgj' hli hlj
  · intro t htmem
    rcases List.mem_or_eq_of_mem_set htmem with hold | hnew
    · have htok := hinv.tok t hold
      cases t with
      | start => trivial
      | leaderSpawn ci0 =>
        have h1 : ci0 < c.calls.length := htok
        show ci0 < (c.calls ++ [(⟨0, none, false⟩ : SFCall)]).length
        simp only [List.length_append, List.length_singleton]
        omega
      | waiting ci0 =>
        have h1 : ci0 < c.calls.length := htok
        show ci0 < (c.calls ++ [(⟨0, none, false⟩ : SFCall)]).length
        simp only [List.length_append, List.length_singleton]
        omega
      | leaderWait ci0 =>
        refine ⟨?_, htok.2⟩
        show ci0 < (c.calls ++ [(⟨0, none, false⟩ : SFCall)]).length
        simp only [List.length_append, List.length_singleton]
        have := htok.1
        omega
      | leaderDel ci0 =>
        obtain ⟨⟨call0, hc0, hp0⟩, hwex⟩ := htok
        refine ⟨⟨call0, ?_, hp0⟩, hwex⟩
        rw [List.get?_append (get?_lt hc0)]
        exact hc0
      | done lead ci0 res =>
        obtain ⟨⟨call0, hc0, hp0, hres⟩, hwex⟩ := htok
        refine ⟨⟨call0, ?_, hp0, hres⟩, hwex⟩
        rw [List.get?_append (get?_lt hc0)]
        exact hc0
    · rw [hnew]
      show c.calls.length < (c.calls ++ [(⟨0, none, false⟩ : SFCall)]).length
      simp only [List.length_append, List.length_singleton]
      omega
  · intro w hw
    have := hinv.wLt w hw
    show wCi w < (c.calls ++ [(⟨0, none, false⟩ : SFCall)]).length
    simp only [List.length_append, List.length_singleton]
    omega
  · intro w hw
    obtain ⟨i0, t0, hg0, hp0⟩ := hinv.wLeader w hw
    have hi0 : i0 ≠ i := by
      intro hh
      subst hh
      rw [ht] at hg0
      rw [← Option.some.inj hg0] at hp0
      exact hp0
    refine ⟨i0, t0, ?_, hp0⟩
    show (c.threads.set i _).get? i0 = some t0
    rw [get?_set_ne' _ _ _ _ hi0]
    exact hg0
  · intro ci call hcall hpub
    rcases get?_append_one_cases hcall with ⟨_, hcall'⟩ | ⟨_, hcalleq⟩
    · exact hinv.pubFin ci call hcall' hpub
    · rw [hcalleq] at hpub
      exact Bool.noConfusion hpub
  · intro ci call hcall hex
    rcases get?_append_one_cases hcall with ⟨_, hcall'⟩ | ⟨hci, _⟩
    · exact hinv.vBound ci call hcall' hex
    · obtain ⟨k, w, hkw, _, hciw⟩ := hex
      have := hinv.wLt w (List.get?_mem hkw)
      rw [hciw, hci] at this
      exact absurd this (lt_irrefl _)

/-- Invariant preservation: the leader spawns the worker goroutine. -/
lemma sfinv_spawn {n : Nat} {c : SFConf} (hinv : SFInv n c) {i ci : Nat}
    (ht : c.threads.get? i = some (.leaderSpawn ci)) :
    SFInv n { c with workers := c.workers ++ [.toRun ci], threads := c.threads.set i (.leaderWait ci) } := by
  have hlt : ci < c.calls.length := hinv.tok _ (List.get?_mem ht)
  have hnoW : ∀ k w, c.workers.get? k = some w → wCi w ≠ ci := by
    intro k w hk hciw
    obtain ⟨i0, t0, hg0, hp0⟩ := hinv.wLeader w (List.get?_mem hk)
    rw [hciw] at hp0
    have hii : i0 = i := hinv.leaderUniq i0 i ci t0 (.leaderSpawn ci) hg0 ht
      (pastSpawn_isLeaderOf hp0) rfl
    subst hii
    rw [ht] at hg0
    rw [← Option.some.inj hg0] at hp0
    exact hp0
  refine ⟨?_, hinv.entryLt, ?_, ?_, ?_, ?_, ?_, ?_, ?_, ?_, ?_⟩
  · simpa [List.length_set] using hinv.tlen
  · intro ci' h
    obtain ⟨i0, t0, hg0, hl0⟩ := hinv.leaderEx ci' h
    by_cases hi0 : i0 = i
    · subst hi0
      rw [ht] at hg0
      rw [← Option.some.inj hg0] at hl0
      refine ⟨i0, .leaderWait ci, ?_, hl0⟩
      exact List.get?_set_eq_of_lt _ (get?_lt ht)
    · refine ⟨i0, t0, ?_, hl0⟩
      show (c.threads.set i _).get? i0 = some t0
      rw [get?_set_ne' _ _ _ _ hi0]
      exact hg0
  · intro i' j' ci' ti tj hgi hgj hli hlj
    rcases get?_set_cases hgi with ⟨hie, hv, _⟩ | ⟨_, hgi'⟩
    · rcases get?_set_cases hgj with ⟨hje, hv', _⟩ | ⟨_, hgj'⟩
      · rw [hie, hje]
      · rw [hv] at hli
        subst hie
        exact hinv.leaderUniq i' j' ci' (.leaderSpawn ci) tj ht hgj' hli hlj
    · rcases get?_set_cases hgj with ⟨hje, hv', _⟩ | ⟨_, hgj'⟩
      · rw [hv'] at hlj
        subst hje
        exact hinv.leaderUniq i' j' ci' ti (.leaderSpawn ci) hgi' ht hli hlj
      · exact hinv.leaderUniq i' j' ci' ti tj hgi' hgj' hli hlj
  · intro t htmem
    rcases List.mem_or_eq_of_mem_set htmem with hold | hnew
    · have htok := hinv.tok t hold
      cases t with
      | start => trivial
      | leaderSpawn ci0 => exact htok
      | waiting ci0 => exact htok
      | leaderWait ci0 =>
        obtain ⟨h1, j0, w0, hjw, hw0⟩ := htok
        refine ⟨h1, j0, w0, ?_, hw0⟩
        rw [List.get?_append (get?_lt hjw)]
        exact hjw
      | leaderDel ci0 =>
        obtain ⟨h1, j0, w0, hjw, hw0⟩ := htok
        refine ⟨h1, j0, w0, ?_, hw0⟩
        rw [List.get?_append (get?_lt hjw)]
        exact hjw
      | done lead ci0 res =>
        obtain ⟨h1, hwex⟩ := htok
        refine ⟨h1, fun hl => ?_⟩
        obtain ⟨j0, w0, hjw, hw0⟩ := hwex hl
        refine ⟨j0, w0, ?_, hw0⟩
        rw [List.get?_append (get?_lt hjw)]
        exact hjw
    · rw [hnew]
      refine ⟨hlt, c.workers.length, .toRun ci, ?_, rfl⟩
      exact List.get?_concat_length _ _
  · intro w hw
    rcases List.mem_append.mp hw with hold | hnew
    · exact hinv.wLt w hold
    · rw [List.mem_singleton.mp hnew]
      exact hlt
  · intro w hw
    rcases List.mem_append.mp hw with hold | hnew
    · obtain ⟨i0, t0, hg0, hp0⟩ := hinv.wLeader w hold
      have hi0 : i0 ≠ i := by
        intro hh
        subst hh
        rw [ht] at hg0
        rw [← Option.some.inj hg0] at hp0
        exact hp0
      refine ⟨i0, t0, ?_, hp0⟩
      show (c.threads.set i _).get? i0 = some t0
      rw [get?_set_ne' _ _ _ _ hi0]
      exact hg0
    · rw [List.mem_singleton.mp hnew]
      refine ⟨i, .leaderWait ci, ?_, rfl⟩
      exact List.get?_set_eq_of_lt _ (get?_lt ht)
  · intro j k wj wk hj hk heq
    rcases get?_append_one_cases hj with ⟨_, hj'⟩ | ⟨hje, hve⟩
    · rcases get?_append_one_cases hk with ⟨_, hk'⟩ | ⟨hke, hve'⟩
      · exact hinv.wUniq j k wj wk hj' hk' heq
      · rw [hve'] at heq
        exact absurd heq (hnoW j wj hj')
    · rcases get?_append_one_cases hk with ⟨_, hk'⟩ | ⟨hke, hve'⟩
      · rw [hve] at heq
        exact absurd heq.symm (hnoW k wk hk')
      · rw [hje, hke]
  · intro ci0 call hcall hpub
    obtain ⟨k, hk⟩ := hinv.pubFin ci0 call hcall hpub
    refine ⟨k, ?_⟩
    rw [List.get?_append (get?_lt hk)]
    exact hk
  · show c.counter = ranCount (c.workers ++ [.toRun ci])
    rw [ranCount_append, hinv.cnt]
    simp [wRanB]
  · intro ci0 call hcall hex
    obtain ⟨k, w, hkw, hran, hciw⟩ := hex
    rcases get?_append_one_cases hkw with ⟨_, hkw'⟩ | ⟨_, hve⟩
    · exact hinv.vBound ci0 call hcall ⟨k, w, hkw', hran, hciw⟩
    · rw [hve] at hran
      exact Bool.noConfusion hran

/-- Invariant preservation: the worker executes the thunk, incrementing the
shared counter and writing the call's result. -/
lemma sfinv_runThunk {n : Nat} {c : SFConf} (hinv : SFInv n c) {j ci : Nat}
    {call : SFCall} (hw : c.workers.get? j = some (.toRun ci))
    (hc : c.calls.get? ci = some call) :
    SFInv n { c with counter := c.counter + 1, calls := c.calls.set ci { call with val := c.counter + 1, err := none }, workers := c.workers.set j (.toPublish ci) } := by
  have hciLt : ci < c.calls.length := get?_lt hc
  have hjLt : j < c.workers.length := get?_lt hw
  have hunpub : call.published = false := by
    cases hpb : call.published
    · rfl
    · obtain ⟨k, hk⟩ := hinv.pubFin ci call hc hpb
      have hjk : j = k := hinv.wUniq j k (.toRun ci) (.finished ci) hw hk rfl
      rw [← hjk] at hk
      rw [hw] at hk
      exact WState.noConfusion (Option.some.inj hk)
  refine ⟨hinv.tlen, ?_, ?_, hinv.leaderUniq, ?_, ?_, ?_, ?_, ?_, ?_, ?_⟩
  · intro ci0 h
    have := hinv.entryLt ci0 h
    simpa [List.length_set] using this
  · intro ci0 h
    have h' : ci0 < c.calls.length := by simpa [List.length_set] using h
    exact hinv.leaderEx ci0 h'
  · intro t htm
    have htok := hinv.tok t htm
    cases t with
    | start => trivial
    | leaderSpawn ci0 =>
      have h1 : ci0 < c.calls.length := htok
      show ci0 < (c.calls.set ci _).length
      simpa [List.length_set] using h1
    | waiting ci0 =>
      have h1 : ci0 < c.calls.length := htok
      show ci0 < (c.calls.set ci _).length
      simpa [List.length_set] using h1
    | leaderWait ci0 =>
      refine ⟨?_,
        @exists_wci_set c.workers j (.toRun ci) (.toPublish ci) hw rfl ci0 htok.2⟩
      have h1 : ci0 < c.calls.length := htok.1
      show ci0 < (c.calls.set ci _).length
      simpa [List.length_set] using h1
    | leaderDel ci0 =>
      obtain ⟨⟨call0, hc0, hp0⟩, hwex⟩ := htok
      have hne : ci0 ≠ ci := by
        intro hh
        subst hh
        rw [hc0] at hc
        rw [← Option.some.inj hc] at hunpub
        rw [hp0] at hunpub
        exact Bool.noConfusion hunpub
      refine ⟨⟨call0, ?_, hp0⟩,
        @exists_wci_set c.workers j (.toRun ci) (.toPublish ci) hw rfl ci0 hwex⟩
      rw [get?_set_ne' _ _ _ _ hne]
      exact hc0
    | done lead ci0 res =>
      obtain ⟨⟨call0, hc0, hp0, hres⟩, hwex⟩ := htok
      have hne : ci0 ≠ ci := by
        intro hh
        subst hh
        rw [hc0] at hc
        rw [← Option.some.inj hc] at hunpub
        rw [hp0] at hunpub
        exact Bool.noConfusion hunpub
      refine ⟨⟨call0, ?_, hp0, hres⟩, fun hl =>
        @exists_wci_set c.workers j (.toRun ci) (.toPublish ci) hw rfl ci0 (hwex hl)⟩
      rw [get?_set_ne' _ _ _ _ hne]
      exact hc0
  · intro w hwm
    rcases List.mem_or_eq_of_mem_set hwm with hold | hnew
    · have := hinv.wLt w hold
      show wCi w < (c.calls.set ci _).length
      simpa [List.length_set] using this
    · rw [hnew]
      show ci < (c.calls.set ci _).length
      simpa [List.length_set] using hciLt
  · intro w hwm
    rcases List.mem_or_eq_of_mem_set hwm with hold | hnew
    · exact hinv.wLeader w hold
    · rw [hnew]
      exact hinv.wLeader (.toRun ci) (List.get?_mem hw)
  · intro j' k' wj wk hj' hk' heq
    rcases get?_set_cases hj' with ⟨hje, hve, _⟩ | ⟨_, hj''⟩
    · rcases get?_set_cases hk' with ⟨hke, hve', _⟩ | ⟨_, hk''⟩
      · rw [hje, hke]
      · subst hje
        rw [hve] at heq
        exact hinv.wUniq j' k' (.toRun ci) wk hw hk'' heq
    · rcases get?_set_cases hk' with ⟨hke, hve', _⟩ | ⟨_, hk''⟩
      · subst hke
        rw [hve'] at heq
        exact hinv.wUniq j' k' wj (.toRun ci) hj'' hw heq
      · exact hinv.wUniq j' k' wj wk hj'' hk'' heq
  · intro ci0 call0 hc0 hp0
    rcases get?_set_cases hc0 with ⟨hce, hve, _⟩ | ⟨hne, hc0'⟩
    · rw [hve] at hp0
      have : call.published = true := hp0
      rw [hunpub] at this
      exact Bool.noConfusion this
    · obtain ⟨k, hk⟩ := hinv.pubFin ci0 call0 hc0' hp0
      have hkj : k ≠ j := by
        intro hh
        subst hh
        rw [hw] at hk
        exact WState.noConfusion (Option.some.inj hk)
      refine ⟨k, ?_⟩
      rw [get?_set_ne' _ _ _ _ hkj]
      exact hk
  · have h := ranCount_set c.workers j (.toRun ci) (.toPublish ci) hw
    simp [wRanB] at h
    have hcnt := hinv.cnt
    show c.counter + 1 = ranCount (c.workers.set j (.toPublish ci))
    omega
  · intro ci0 call0 hc0 hex
    rcases get?_set_cases hc0 with ⟨hce, hve, _⟩ | ⟨hne, hc0'⟩
    · rw [hve]
      refine ⟨rfl, ?_, ?_⟩
      · show 1 ≤ c.counter + 1
        omega
      · show c.counter + 1 ≤ c.counter + 1
        omega
    · obtain ⟨k, w, hkw, hran, hciw⟩ := hex
      rcases get?_set_cases hkw with ⟨hke, hve', _⟩ | ⟨_, hkw'⟩
      · rw [hve'] at hciw
        exact absurd hciw.symm hne
      · have hb := hinv.vBound ci0 call0 hc0' ⟨k, w, hkw', hran, hciw⟩
        refine ⟨hb.1, hb.2.1, ?_⟩
        show call0.val ≤ c.counter + 1
        have := hb.2.2
        omega

/-- Invariant preservation: the worker publishes (`wg.Done`). -/
lemma sfinv_publish {n : Nat} {c : SFConf} (hinv : SFInv n c) {j ci : Nat}
    {call : SFCall} (hw : c.workers.get? j = some (.toPublish ci))
    (hc : c.calls.get? ci = some call) :
    SFInv n { c with calls := c.calls.set ci { call with published := true }, workers := c.workers.set j (.finished ci) } := by
  have hciLt : ci < c.calls.length := get?_lt hc
  have hjLt : j < c.workers.length := get?_lt hw
  refine ⟨hinv.tlen, ?_, ?_, hinv.leaderUniq, ?_, ?_, ?_, ?_, ?_, ?_, ?_⟩
  · intro ci0 h
    have := hinv.entryLt ci0 h
    simpa [List.length_set] using this
  · intro ci0 h
    have h' : ci0 < c.calls.length := by simpa [List.length_set] using h
    exact hinv.leaderEx ci0 h'
  · intro t htm
    have htok := hinv.tok t htm
    cases t with
    | start => trivial
    | leaderSpawn ci0 =>
      have h1 : ci0 < c.calls.length := htok
      show ci0 < (c.calls.set ci _).length
      simpa [List.length_set] using h1
    | waiting ci0 =>
      have h1 : ci0 < c.calls.length := htok
      show ci0 < (c.calls.set ci _).length
      simpa [List.length_set] using h1
    | leaderWait ci0 =>
      refine ⟨?_,
        @exists_wci_set c.workers j (.toPublish ci) (.finished ci) hw rfl ci0 htok.2⟩
      have h1 : ci0 < c.calls.length := htok.1
      show ci0 < (c.calls.set ci _).length
      simpa [List.length_set] using h1
    | leaderDel ci0 =>
      obtain ⟨⟨call0, hc0, hp0⟩, hwex⟩ := htok
      by_cases hne : ci0 = ci
      · subst hne
        refine ⟨⟨{ call with published := true }, ?_, rfl⟩,
          @exists_wci_set c.workers j (.toPublish ci0) (.finished ci0) hw rfl ci0 hwex⟩
        exact List.get?_set_eq_of_lt _ hciLt
      · refine ⟨⟨call0, ?_, hp0⟩,
          @exists_wci_set c.workers j (.toPublish ci) (.finished ci) hw rfl ci0 hwex⟩
        rw [get?_set_ne' _ _ _ _ hne]
        exact hc0
    | done lead ci0 res =>
      obtain ⟨⟨call0, hc0, hp0, hres⟩, hwex⟩ := htok
      by_cases hne : ci0 = ci
      · subst hne
        have hcall0 : call0 = call := by
          rw [hc0] at hc
          exact Option.some.inj hc
        subst hcall0
        refine ⟨⟨{ call0 with published := true }, ?_, rfl, hres⟩, fun hl =>
          @exists_wci_set c.workers j (.toPublish ci0) (.finished ci0) hw rfl ci0 (hwex hl)⟩
        exact List.get?_set_eq_of_lt _ hciLt
      · refine ⟨⟨call0, ?_, hp0, hres⟩, fun hl =>
          @exists_wci_set c.workers j (.toPublish ci) (.finished ci) hw rfl ci0 (hwex hl)⟩
        rw [get?_set_ne' _ _ _ _ hne]
        exact hc0
  · intro w hwm
    rcases List.mem_or_eq_of_mem_set hwm with hold | hnew
    · have := hinv.wLt w hold
      show wCi w < (c.calls.set ci _).length
      simpa [List.length_set] using this
    · rw [hnew]
      show ci < (c.calls.set ci _).length
      simpa [List.length_set] using hciLt
  · intro w hwm
    rcases List.mem_or_eq_of_mem_set hwm with hold | hnew
    · exact hinv.wLeader w hold
    · rw [hnew]
      exact hinv.wLeader (.toPublish ci) (List.get?_mem hw)
  · intro j' k' wj wk hj' hk' heq
    rcases get?_set_cases hj' with ⟨hje, hve, _⟩ | ⟨_, hj''⟩
    · rcases get?_set_cases hk' with ⟨hke, hve', _⟩ | ⟨_, hk''⟩
      · rw [hje, hke]
      · subst hje
        rw [hve] at heq
        exact hinv.wUniq j' k' (.toPublish ci) wk hw hk'' heq
    · rcases get?_set_cases hk' with ⟨hke, hve', _⟩ | ⟨_, hk''⟩
      · subst hke
        rw [hve'] at heq
        exact hinv.wUniq j' k' wj (.toPublish ci) hj'' hw heq
      · exact hinv.wUniq j' k' wj wk hj'' hk'' heq
  · intro ci0 call0 hc0 hp0
    rcases get?_set_cases hc0 with ⟨hce, hve, _⟩ | ⟨hne, hc0'⟩
    · subst hce
      refine ⟨j, ?_⟩
      exact List.get?_set_eq_of_lt _ hjLt
    · obtain ⟨k, hk⟩ := hinv.pubFin ci0 call0 hc0' hp0
      have hkj : k ≠ j := by
        intro hh
        subst hh
        rw [hw] at hk
        exact WState.noConfusion (Option.some.inj hk)
      refine ⟨k, ?_⟩
      rw [get?_set_ne' _ _ _ _ hkj]
      exact hk
  · have h := ranCount_set c.workers j (.toPublish ci) (.finished ci) hw
    simp [wRanB] at h
    have hcnt := hinv.cnt
    show c.counter = ranCount (c.workers.set j (.finished ci))
    omega
  · intro ci0 call0 hc0 hex
    rcases get?_set_cases hc0 with ⟨hce, hve, _⟩ | ⟨hne, hc0'⟩
    · subst hce
      have hold := hinv.vBound ci0 call hc ⟨j, .toPublish ci0, hw, rfl, rfl⟩
      rw [hve]
      exact ⟨hold.1, hold.2.1, hold.2.2⟩
    · obtain ⟨k, w, hkw, hran, hciw⟩ := hex
      rcases get?_set_cases hkw with ⟨hke, hve', _⟩ | ⟨_, hkw'⟩
      · rw [hve'] at hciw
        exact absurd hciw.symm hne
      · exact hinv.vBound ci0 call0 hc0' ⟨k, w, hkw', hran, hciw⟩

/-- Every reachable configuration satisfies the invariant. -/
lemma sfinv_reach {n : Nat} {c : SFConf} (h : SFReach n c) : SFInv n c := by
  induction h with
  | refl => exact sfinv_init n
  | tail hsteps hstep ih =>
    cases hstep with
    | join i ci ht he => exact sfinv_join ih ht he
    | lead i ht he => exact sfinv_lead ih ht he
    | spawn i ci ht => exact sfinv_spawn ih ht
    | runThunk j ci call hw hc => exact sfinv_runThunk ih hw hc
    | publish j ci call hw hc => exact sfinv_publish ih hw hc
    | leaderUnblock i ci call ht hc hp => exact sfinv_leaderUnblock ih ht hc hp
    | deleteEntry i ci call ht hc => exact sfinv_deleteEntry ih ht hc
    | joinerUnblock i ci call ht hc hp => exact sfinv_joinerUnblock ih ht hc hp

/-! ## Claim theorems -/

/-- C1, counterexample: the byte-budget invariant as claimed — for every
`maxBytes`, in particular `maxBytes = 0` — fails on the code: with
`maxBytes = 0` the eviction loop is disabled, so a single Add of a 1-byte
value under the 1-byte key "k" leaves `nbytes = 2 > 0 = maxBytes`. -/
theorem C1_budget_counterexample :
    ¬ (((LruCache.new ByteView 0).add bvLen "k" ⟨[7]⟩).nbytes ≤
        (LruCache.new ByteView 0).maxBytes) := by decide

/-- C1, amended: for every nonzero (positive) `maxBytes` and every sequence
of Adds starting from a fresh store, `nbytes ≤ maxBytes` holds after each
Add returns (each prefix of the sequence is itself such a sequence). -/
theorem C1_lru_budget {V : Type} (vLen : V → Nat) (maxB : Int)
    (hpos : 0 < maxB) (ops : List (String × V)) :
    (ops.foldl (fun c p => c.add vLen p.1 p.2)
        (LruCache.new V maxB)).nbytes ≤ maxB :=
  foldl_add_le vLen maxB hpos ops (LruCache.new V maxB) rfl rfl
    (le_of_lt hpos)

/-- C1 witness: the spec's LRU-eviction scenario (budget 10, three entries
of size 7 each) stays within budget. -/
theorem C1_lru_budget_witness :
    ((0:Int) < 10) ∧
    (([("key1", (⟨[0, 0, 0]⟩ : ByteView)), ("key2", ⟨[0, 0, 0]⟩),
       ("key3", ⟨[0, 0, 0]⟩)].foldl (fun c p => c.add bvLen p.1 p.2)
        (LruCache.new ByteView 10)).nbytes ≤ 10) :=
  ⟨by decide, C1_lru_budget bvLen 10 (by decide) _⟩

/-- C8, counterexample: re-adding an existing key does NOT always change
`nbytes` by newLen − oldLen: with budget 10 holding "aaaa"↦1-byte and
"bbbb"↦1-byte (nbytes = 10), re-adding "aaaa" with a 4-byte value raises
nbytes to 13, which evicts "bbbb" (size 5), landing at 8 ≠ 10 + (4 − 1). -/
theorem C8_delta_counterexample :
    ¬ (((((LruCache.new ByteView 10).add bvLen "aaaa" ⟨[0]⟩).add bvLen "bbbb"
          ⟨[0]⟩).add bvLen "aaaa" ⟨[0, 1, 2, 3]⟩).nbytes =
        (((LruCache.new ByteView 10).add bvLen "aaaa" ⟨[0]⟩).add bvLen "bbbb"
          ⟨[0]⟩).nbytes + ((4 : Int) - 1)) := by decide

/-- C8, amended: re-adding an existing key changes `nbytes` by exactly the
new value's size minus the old value's size provided the adjusted total
does not exceed the budget (or the budget is 0); in particular re-adding
the identical value (delta 0) on a store at rest leaves `nbytes`
unchanged.  (When the delta pushes `nbytes` over the budget, eviction may
shrink it further, as the counterexample shows.) -/
theorem C8_readd_delta {V : Type} (vLen : V → Nat) (c : LruCache V)
    (k : String) (vNew vOld : V) (hfind : findVal c.ll k = some vOld)
    (hfit : c.maxBytes = 0 ∨
      c.nbytes + ((vLen vNew : Int) - (vLen vOld : Int)) ≤ c.maxBytes) :
    (c.add vLen k vNew).nbytes =
      c.nbytes + ((vLen vNew : Int) - (vLen vOld : Int)) :=
  add_existing_nofire vLen c k vNew vOld hfind hfit

/-- C8 witness: re-adding "k" with the same 2-byte value on an at-rest
store with budget 8 leaves nbytes at its old value 4 + (2 − 2) = 4. -/
theorem C8_readd_delta_witness :
    (((LruCache.new ByteView 8).add bvLen "ka" ⟨[5, 6]⟩).add bvLen "ka"
        ⟨[5, 6]⟩).nbytes =
      ((LruCache.new ByteView 8).add bvLen "ka" ⟨[5, 6]⟩).nbytes +
        ((bvLen ⟨[5, 6]⟩ : Int) - (bvLen ⟨[5, 6]⟩ : Int)) :=
  C8_readd_delta bvLen _ "ka" ⟨[5, 6]⟩ ⟨[5, 6]⟩ (by decide) (by decide)

/-- C9, counterexample: on a zero-value façade (before any add has
initialized the policy), `Len` calls `c.lru.Len()` without the nil check
that `add` and `get` perform, dereferencing the nil policy pointer — the
`none` result here is that nil dereference; in particular `Len` does not
report an empty store (`some 0`), so "len reports an empty store, with no
nil-dereference on any of these paths" is false. -/
theorem C9_len_counterexample :
    Gcache.lenOp (Gcache.zero 16) = none ∧
    ¬ Gcache.lenOp (Gcache.zero 16) = some 0 :=
  ⟨rfl, fun h => Option.noConfusion h⟩

/-- C9, amended: on a zero-value façade with a byte budget, `get` is safe
and returns a miss, and `add` is safe and lazily initializes the policy
with that budget; `len` however dereferences the uninitialized policy and
is only defined once the policy exists (then it reports its entry count). -/
theorem C9_zero_value_facade :
    (∀ (b : Int) (k : String),
        Gcache.get (Gcache.zero b) k = (⟨[]⟩, false, Gcache.zero b)) ∧
    (∀ (b : Int) (k : String) (v : ByteView),
        (Gcache.add (Gcache.zero b) k v).lru =
          some ((LruCache.new ByteView b).add bvLen k v)) ∧
    (∀ (c : Gcache) (l : LruCache ByteView), c.lru = some l →
        Gcache.lenOp c = some l.lenOp) := by
  refine ⟨fun b k => rfl, fun b k v => rfl, fun c l h => ?_⟩
  simp [Gcache.lenOp, h]

/-- C9 witness: a façade whose policy was initialized by one add reports
an entry count. -/
theorem C9_zero_value_facade_witness :
    Gcache.lenOp { lru := some (LruCache.new ByteView 8), cacheBytes := 8 } =
      some (LruCache.new ByteView 8).lenOp :=
  C9_zero_value_facade.2.2 _ (LruCache.new ByteView 8) rfl

/-- C10: the global registry has last-registration-wins semantics: a second
NewGroup with an already-registered name succeeds without error or panic
(only a nil getter panics), and afterwards GetGroup returns the most recent
group, never the earlier (distinct) one; other names are unaffected. -/
theorem C10_registry_last_wins {G : Type} (reg : List (String × G))
    (name : String) (g1 g2 : G) (r1 r2 : List (String × G))
    (h1 : newGroup reg name true g1 = some r1)
    (h2 : newGroup r1 name true g2 = some r2) :
    getGroup r2 name = some g2 ∧
    (g1 ≠ g2 → getGroup r2 name ≠ some g1) ∧
    (∀ other, other ≠ name → getGroup r2 other = getGroup reg other) ∧
    (∀ (r : List (String × G)) (g : G), (newGroup r name true g).isSome) := by
  have e1 : r1 = mapSet reg name g1 := by
    simpa [newGroup] using h1.symm
  have e2 : r2 = mapSet r1 name g2 := by
    simpa [newGroup] using h2.symm
  subst e1
  subst e2
  refine ⟨findVal_mapSet_self _ _ _, ?_, ?_, fun r g => by simp [newGroup]⟩
  · intro hne hcontra
    rw [getGroup, findVal_mapSet_self] at hcontra
    exact hne (Option.some.inj hcontra).symm
  · intro other hother
    rw [getGroup, findVal_mapSet_ne _ _ _ _ hother,
      findVal_mapSet_ne _ _ _ _ hother]
    rfl

/-- C10 witness: registering 1 then 2 under "scores" in an empty registry
leaves 2 retrievable. -/
theorem C10_registry_last_wins_witness :
    getGroup (mapSet (mapSet ([] : List (String × Nat)) "scores" 1)
        "scores" 2) "scores" = some 2 :=
  (C10_registry_last_wins ([] : List (String × Nat)) "scores" 1 2 _ _
    rfl rfl).1

/-- C5: the consistent-hash ring scenario with replicas = 3 and
h(s) = atoi(s): Add("6","4","2") yields the sorted positions
{2,4,6,12,14,16,22,24,26} and the four lookups of the claim (including the
wrap at "27"); a further Add("8") adds {8,18,28} and moves "27" to "8". -/
theorem C5_ring_scenario :
    (chAdd { hash := atoi, nreplicas := 3, keys := [], mapping := [] }
        ["6", "4", "2"]).keys = [2, 4, 6, 12, 14, 16, 22, 24, 26] ∧
    chGet (chAdd { hash := atoi, nreplicas := 3, keys := [], mapping := [] }
        ["6", "4", "2"]) "2" = "2" ∧
    chGet (chAdd { hash := atoi, nreplicas := 3, keys := [], mapping := [] }
        ["6", "4", "2"]) "11" = "2" ∧
    chGet (chAdd { hash := atoi, nreplicas := 3, keys := [], mapping := [] }
        ["6", "4", "2"]) "23" = "4" ∧
    chGet (chAdd { hash := atoi, nreplicas := 3, keys := [], mapping := [] }
        ["6", "4", "2"]) "27" = "2" ∧
    (chAdd (chAdd { hash := atoi, nreplicas := 3, keys := [], mapping := [] }
        ["6", "4", "2"]) ["8"]).keys =
      [2, 4, 6, 8, 12, 14, 16, 18, 22, 24, 26, 28] ∧
    chGet (chAdd (chAdd
        { hash := atoi, nreplicas := 3, keys := [], mapping := [] }
        ["6", "4", "2"]) ["8"]) "27" = "8" := by decide

/-- C3: if the load pipeline picks a non-self peer and the peer call
succeeds, `load` returns the peer's bytes as the value view and leaves the
local store untouched; and whenever `load` changes the store at all, it is
on the authoritative path — no peer was picked, or the peer call failed —
with a successful local loader, whose (defensively copied) value is what
gets populated. -/
theorem C3_peer_no_populate :
    (∀ (env : GroupEnv) (c : Gcache) (key : String) (peer : PeerId)
        (bs : List Nat),
        loadPicked env key = some peer → env.peerGet peer key = .ok bs →
        groupLoad env c key = (.ok ⟨bs⟩, c)) ∧
    (∀ (env : GroupEnv) (c : Gcache) (key : String),
        (groupLoad env c key).2 ≠ c →
        ((loadPicked env key = none ∨
            ∃ peer e, loadPicked env key = some peer ∧
              env.peerGet peer key = .error e) ∧
          ∃ bs, env.getter key = .ok bs ∧
            (groupLoad env c key).2 = c.add key ⟨cloneBytes bs⟩)) := by
  constructor
  · intro env c key peer bs hpick hok
    have hkey : ¬ (key = "") := by
      intro h
      rw [loadPicked, if_pos h] at hpick
      exact Option.noConfusion hpick
    rw [loadPicked, if_neg hkey] at hpick
    rw [groupLoad, if_neg hkey]
    cases hp : env.peers with
    | none =>
      simp only [hp] at hpick
      exact Option.noConfusion hpick
    | some pick =>
      simp only [hp] at hpick
      simp only [hpick, getFromPeer, hok]
  · intro env c key hchange
    by_cases hkey : key = ""
    · rw [groupLoad, if_pos hkey] at hchange
      exact absurd rfl hchange
    · have hloc : ∀ (hch : (getLocally env c key).2 ≠ c),
          ∃ bs, env.getter key = .ok bs ∧
            (getLocally env c key).2 = c.add key ⟨cloneBytes bs⟩ := by
        intro hch
        cases hg : env.getter key with
        | error e => rw [getLocally, hg] at hch; exact absurd rfl hch
        | ok bs => exact ⟨bs, rfl, by rw [getLocally, hg]⟩
      rw [groupLoad, if_neg hkey] at hchange ⊢
      cases hp : env.peers with
      | none =>
        simp only [hp] at hchange ⊢
        refine ⟨Or.inl ?_, hloc hchange⟩
        rw [loadPicked, if_neg hkey]
        simp only [hp]
      | some pick =>
        simp only [hp] at hchange ⊢
        cases hpk : pick key with
        | none =>
          simp only [hpk] at hchange ⊢
          refine ⟨Or.inl ?_, hloc hchange⟩
          rw [loadPicked, if_neg hkey]
          simp only [hp, hpk]
        | some peer =>
          simp only [hpk] at hchange ⊢
          cases hpg : env.peerGet peer key with
          | ok bs =>
            simp only [getFromPeer, hpg] at hchange
            exact absurd rfl hchange
          | error e =>
            simp only [getFromPeer, hpg] at hchange ⊢
            refine ⟨Or.inr ⟨peer, e, ?_, hpg⟩, hloc hchange⟩
            rw [loadPicked, if_neg hkey]
            simp only [hp, hpk]

/-- C3 witness: a picker that picks peer 0 whose call returns [7] makes
load return that view and leave a zero-value store untouched. -/
theorem C3_peer_no_populate_witness :
    groupLoad
      { peers := some fun _ => some 0,
        peerGet := fun _ _ => .ok [7],
        getter := fun _ => .error "loader should not run" }
      (Gcache.zero 64) "Tom" = (.ok ⟨[7]⟩, Gcache.zero 64) :=
  C3_peer_no_populate.1 _ (Gcache.zero 64) "Tom" 0 [7] rfl rfl

/-- C6: when the picked peer's call fails, `load` falls back to the local
loader and returns exactly its result — populating the store on loader
success, and surfacing the loader's (not the peer's) error when the loader
also fails, with the store untouched. -/
theorem C6_peer_fallback (env : GroupEnv) (c : Gcache) (key : String)
    (peer : PeerId) (e : String) (hpick : loadPicked env key = some peer)
    (hfail : env.peerGet peer key = .error e) :
    groupLoad env c key = getLocally env c key ∧
    (∀ bs, env.getter key = .ok bs →
      groupLoad env c key = (.ok ⟨cloneBytes bs⟩, c.add key ⟨cloneBytes bs⟩)) ∧
    (∀ e2, env.getter key = .error e2 →
      groupLoad env c key = (.error e2, c)) := by
  have hkey : ¬ (key = "") := by
    intro h
    rw [loadPicked, if_pos h] at hpick
    exact Option.noConfusion hpick
  rw [loadPicked, if_neg hkey] at hpick
  have hmain : groupLoad env c key = getLocally env c key := by
    rw [groupLoad, if_neg hkey]
    cases hp : env.peers with
    | none =>
      simp only [hp] at hpick
      exact Option.noConfusion hpick
    | some pick =>
      simp only [hp] at hpick
      simp only [hpick, getFromPeer, hfail]
  refine ⟨hmain, ?_, ?_⟩
  · intro bs hg
    rw [hmain, getLocally, hg]
  · intro e2 hg
    rw [hmain, getLocally, hg]

/-- C6 witness: peer 0 fails, the loader fails with "Tom not exist", and
load surfaces the loader's error with the store untouched. -/
theorem C6_peer_fallback_witness :
    groupLoad
      { peers := some fun _ => some 0,
        peerGet := fun _ _ => .error "server returned: 500",
        getter := fun _ => .error "Tom not exist" }
      (Gcache.zero 64) "Tom" = (.error "Tom not exist", Gcache.zero 64) :=
  (C6_peer_fallback
      { peers := some fun _ => some 0,
        peerGet := fun _ _ => .error "server returned: 500",
        getter := fun _ => .error "Tom not exist" }
      (Gcache.zero 64) "Tom" 0 "server returned: 500" rfl rfl).2.2
    "Tom not exist" rfl

/-- C7: PutWithTTL rejects a negative ttl before touching anything: the
call returns with the whole ARC state — all four lists, the index map,
the entry heap, size and p — unchanged. -/
theorem C7_negative_ttl_noop (s : ArcState) (key : String) (value : Nat)
    (ttl now : Int) (h : ttl < 0) :
    arcPutWithTTL s key value ttl now = some s := by
  rw [arcPutWithTTL, if_pos h]

/-- C7 witness: Put with ttl = −1 on a fresh capacity-2 ARC returns the
state unchanged. -/
theorem C7_negative_ttl_noop_witness :
    ((-1 : Int) < 0) ∧
    arcPutWithTTL (newARC 2) "a" 9 (-1) 5 = some (newARC 2) :=
  ⟨by decide, C7_negative_ttl_noop (newARC 2) "a" 9 (-1) 5 (by decide)⟩

/-- C2: the §4.3 index invariant — every indexed key points to an entry in
exactly one of T1/T2 — is broken by the very migration the claim singles
out: on a capacity-2 ARC, after Put("a") the invariant holds, but
Get("a") (hit in T1) removes the indexed element from T1 and then executes
`arc.t2.PushFront(ele)`, pushing the element itself as the value of a
fresh T2 element; the indexed element then resides in neither list, even
though Get still returns the value. -/
theorem C2_index_invariant_broken :
    ((arcPut (newARC 2) "a" 7 0).bind fun s1 =>
      (arcGet s1 "a" 0).map fun r => (arcIndexOk s1, r.1, arcIndexOk r.2)) =
      some (true, some 7, false) := by decide

/-- The demo schedule is an actual run of the machine. -/
lemma sfDemo_reach : SFReach 2 sfDemo8 := by
  have s1 : SFStep (SFInit 2) sfDemo1 := SFStep.lead (SFInit 2) 0 rfl rfl
  have s2 : SFStep sfDemo1 sfDemo2 := SFStep.join sfDemo1 1 0 rfl rfl
  have s3 : SFStep sfDemo2 sfDemo3 := SFStep.spawn sfDemo2 0 0 rfl
  have s4 : SFStep sfDemo3 sfDemo4 :=
    SFStep.runThunk sfDemo3 0 0 ⟨0, none, false⟩ rfl rfl
  have s5 : SFStep sfDemo4 sfDemo5 :=
    SFStep.publish sfDemo4 0 0 ⟨1, none, false⟩ rfl rfl
  have s6 : SFStep sfDemo5 sfDemo6 :=
    SFStep.leaderUnblock sfDemo5 0 0 ⟨1, none, true⟩ rfl rfl rfl
  have s7 : SFStep sfDemo6 sfDemo7 :=
    SFStep.deleteEntry sfDemo6 0 0 ⟨1, none, true⟩ rfl rfl
  have s8 : SFStep sfDemo7 sfDemo8 :=
    SFStep.joinerUnblock sfDemo7 1 0 ⟨1, none, true⟩ rfl rfl rfl
  exact Relation.ReflTransGen.tail (Relation.ReflTransGen.tail
    (Relation.ReflTransGen.tail (Relation.ReflTransGen.tail
      (Relation.ReflTransGen.tail (Relation.ReflTransGen.tail
        (Relation.ReflTransGen.tail (Relation.ReflTransGen.tail
          Relation.ReflTransGen.refl s1) s2) s3) s4) s5) s6) s7) s8

/-- C4: single-flight exactly-once.  In every reachable configuration of an
N-caller burst (N ≥ 1) in which every caller has completed through the same
call — i.e. the burst overlapped one in-flight call, each caller either
creating the entry or finding it in the map — the thunk ran exactly once
(the shared counter is 1) and every caller received the same pair
(1, nil): the value published by that single execution. -/
theorem C4_singleflight_exactly_once (n : Nat) (c : SFConf) (ci0 : Nat)
    (hreach : SFReach n c) (hn : 0 < n)
    (hdone : ∀ t ∈ c.threads, ∃ lead res, t = TState.done lead ci0 res) :
    c.counter = 1 ∧
    ∀ t ∈ c.threads, ∃ lead, t = TState.done lead ci0 (1, none) := by
  have hinv := sfinv_reach hreach
  have hlen : 0 < c.threads.length := by rw [hinv.tlen]; exact hn
  obtain ⟨t0, ht0g⟩ := get?_exists c.threads 0 hlen
  have ht0m := List.get?_mem ht0g
  obtain ⟨l0, r0, ht0eq⟩ := hdone t0 ht0m
  have htok0 := hinv.tok t0 ht0m
  rw [ht0eq] at htok0
  obtain ⟨⟨call0, hcall0, hpub0, hres0⟩, _⟩ := htok0
  have hci0lt : ci0 < c.calls.length := get?_lt hcall0
  have hleadci : ∀ ci', ci' < c.calls.length → ci' = ci0 := by
    intro ci' h
    obtain ⟨ia, ta, hga, hla⟩ := hinv.leaderEx ci' h
    obtain ⟨la, ra, hta⟩ := hdone ta (List.get?_mem hga)
    rw [hta] at hla
    cases la with
    | false => exact hla.elim
    | true =>
      have heq : ci0 = ci' := hla
      exact heq.symm
  have hlen1 : c.calls.length = 1 := by
    rcases Nat.lt_or_ge c.calls.length 2 with h | h
    · omega
    · have h0 := hleadci 0 (by omega)
      have h1 := hleadci 1 (by omega)
      omega
  have hci00 : ci0 = 0 := by omega
  subst hci00
  obtain ⟨jf, hjf⟩ := hinv.pubFin 0 call0 hcall0 hpub0
  have hallj : ∀ k w, c.workers.get? k = some w → k = jf := by
    intro k w hk
    have h1 : wCi w < c.calls.length := hinv.wLt w (List.get?_mem hk)
    rw [hlen1] at h1
    have h2 : wCi w = 0 := by omega
    exact hinv.wUniq k jf w (.finished 0) hk hjf (by rw [h2]; rfl)
  have hjf0 : jf = 0 := by
    have hjlt := get?_lt hjf
    obtain ⟨w0, hw0⟩ := get?_exists c.workers 0 (by omega)
    exact (hallj 0 w0 hw0).symm
  subst hjf0
  have hwl1 : c.workers.length = 1 := by
    have h1 : 0 < c.workers.length := get?_lt hjf
    by_contra hne
    have h2 : 2 ≤ c.workers.length := by omega
    obtain ⟨w1, hw1⟩ := get?_exists c.workers 1 (by omega)
    have := hallj 1 w1 hw1
    omega
  have hwork : c.workers = [WState.finished 0] := by
    cases hwcs : c.workers with
    | nil =>
      rw [hwcs] at hwl1
      exact absurd hwl1 (by simp)
    | cons a rest =>
      rw [hwcs] at hwl1 hjf
      have hrl : rest.length = 0 := by simpa using hwl1
      have hrest : rest = [] := List.length_eq_zero.mp hrl
      subst hrest
      have ha : a = WState.finished 0 := by simpa [List.get?] using hjf
      rw [ha]
  have hcnt1 : c.counter = 1 := by
    rw [hinv.cnt, hwork]
    rfl
  have hv := hinv.vBound 0 call0 hcall0 ⟨0, .finished 0, hjf, rfl, rfl⟩
  have hval : call0.val = 1 := by
    have h1 := hv.2.1
    have h2 := hv.2.2
    omega
  refine ⟨hcnt1, ?_⟩
  intro t ht
  obtain ⟨lead, res, hteq⟩ := hdone t ht
  have htokt := hinv.tok t ht
  rw [hteq] at htokt
  obtain ⟨⟨callt, hct, hpt, hrt⟩, _⟩ := htokt
  have hcteq : callt = call0 := by
    rw [hct] at hcall0
    exact Option.some.inj hcall0
  refine ⟨lead, ?_⟩
  rw [hteq, hrt, hcteq, hval, hv.1]

/-- C4 witness: the two-caller schedule in which caller 0 leads and caller
1 joins ends with counter 1 and both callers holding (1, nil). -/
theorem C4_singleflight_exactly_once_witness :
    sfDemo8.counter = 1 ∧
    ∀ t ∈ sfDemo8.threads, ∃ lead, t = TState.done lead 0 (1, none) := by
  refine C4_singleflight_exactly_once 2 sfDemo8 0 sfDemo_reach (by decide) ?_
  intro t ht
  have h2 : t = TState.done true 0 (1, none) ∨
      t = TState.done false 0 (1, none) := by
    simpa [sfDemo8] using ht
  rcases h2 with h | h
  · exact ⟨true, (1, none), h⟩
  · exact ⟨false, (1, none), h⟩

end GoCacheX
